import Mathlib

/-!
Verification of the pooled small-object allocator (mem-poolman.cpp, mem-pool.cpp)
and of parts of the parser / bytecode dumper (parser.cpp) of the jerryscript
compilation front-end.

The allocator is embedded shallowly: a pool chunk is identified by the pair
(owning pool id, index of the chunk inside the pool); the intrusive free list,
whose links are stored in the first machine word of each free chunk, is
represented by the Lean list of the chunks in link order; the global counter
mem_free_chunks_number and the set of pool blocks currently held from the heap
are carried alongside.  MEM_POOL_CHUNKS_NUMBER is the parameter N.
-/

namespace JerryMem

/-- A pool chunk: (owning pool id, chunk index inside the pool).  The pool id
stands for the base address returned by mem_heap_get_chunked_block_start; the
index is the offset divided by MEM_POOL_CHUNK_SIZE.  The chunk is the first
chunk of its pool exactly when its index is 0. -/
abbrev Chunk := Nat × Nat

/-- State of the pool manager (mem-poolman.cpp globals).
freeList models the chain hanging off mem_free_chunk_p: the first element is
the chunk mem_free_chunk_p points to, and each chunk stores a pointer to the
next element in its first word (the last chunk stores null).
freeCount is mem_free_chunks_number.  livePools is the list of pool blocks
currently held from the heap (ids of blocks obtained from
mem_heap_alloc_chunked_block and not yet returned by mem_heap_free_block).
nextPool is a freshness source for pool ids: the heap never hands out a block
that is still live. -/
structure PoolAlloc where
  freeList : List Chunk
  freeCount : Nat
  livePools : List Nat
  nextPool : Nat
deriving Repr, DecidableEq

/-- mem_pools_init: zero free chunks, null free-chunk pointer. -/
def mem_pools_init : PoolAlloc := ⟨[], 0, [], 0⟩

/-- The chain of chunks produced by mem_pool_init (mem-pool.cpp) for a pool p
of N chunks: chunk 0 points to chunk 1, ..., chunk N-1 stores null; chunk 0 is
returned as the head of the chain. -/
def mem_pool_init (p N : Nat) : List Chunk :=
  (List.range N).map fun i => (p, i)

/-- mem_pools_free: pushes the chunk on the head of the free-chunk list and
increments the counter.  It cannot fail. -/
def mem_pools_free (s : PoolAlloc) (c : Chunk) : PoolAlloc :=
  { s with freeList := c :: s.freeList, freeCount := s.freeCount + 1 }

/-- The side effect of the garbage collector possibly run by
mem_heap_alloc_chunked_block during the slow path: each chunk it releases goes
through mem_pools_free. -/
def gcApply (s : PoolAlloc) (gcFreed : List Chunk) : PoolAlloc :=
  gcFreed.foldl mem_pools_free s

/-- mem_pools_alloc_longpath.  Called only when the free list is empty.
A block for one pool is requested from the heap (the fresh id s.nextPool);
gcFreed lists the chunks freed by the garbage collector as a side effect of
that heap call.  If afterwards mem_free_chunks_number is not zero, the freshly
acquired block is immediately released back to the heap; otherwise the block
is formatted by mem_pool_init as N chained free chunks and that chain becomes
the free list.

heapOk models whether the heap can provide the block.  The missing heap code
is not part of the sources; per the specification, on heap exhaustion the
allocation fails (the source asserts the heap result is non-null). -/
def mem_pools_alloc_longpath (N : Nat) (s : PoolAlloc) (gcFreed : List Chunk)
    (heapOk : Bool) : PoolAlloc :=
  if heapOk then
    let t := gcApply s gcFreed
    if t.freeCount ≠ 0 then
      { t with nextPool := s.nextPool + 1 }
    else
      { freeList := mem_pool_init s.nextPool N
        freeCount := t.freeCount + N
        livePools := s.nextPool :: t.livePools
        nextPool := s.nextPool + 1 }
  else
    gcApply s gcFreed

/-- The fast path of mem_pools_alloc: pop the head of the free-chunk list and
decrement the counter (returns none when the list is empty, the sentinel of
mem_pools_alloc). -/
def popFree (s1 : PoolAlloc) : Option Chunk × PoolAlloc :=
  match s1.freeList with
  | [] => (none, s1)
  | c :: rest => (some c, { s1 with freeList := rest, freeCount := s1.freeCount - 1 })

/-- mem_pools_alloc: if the free list is empty, run the long path; then pop
the head of the free list and decrement the counter.  Returns the allocated
chunk, or none if even after the long path no chunk is free. -/
def mem_pools_alloc (N : Nat) (s : PoolAlloc) (gcFreed : List Chunk)
    (heapOk : Bool) : Option Chunk × PoolAlloc :=
  popFree (if s.freeList.isEmpty then mem_pools_alloc_longpath N s gcFreed heapOk else s)

/-! ## mem_pools_remove_empty_pools

The three-pass compacting pass.  During the pass the first chunk of a
candidate pool is overwritten with a temporary header
(next candidate in bucket, head of the local free-chunk chain of the pool,
magic, free count, bucket id); the model carries those headers in a separate
list of `Cand` records (the memory overwritten is exactly the candidate
chunks, which are off the global list while the records exist). -/

/-- Temporary first-chunk header created by pass 1
(mem_temp_first_chunk_layout_t): owning pool, the local chain of the other
free chunks of the pool collected by pass 2 (head = most recently moved,
matching the pointer free_chunks_of_the_pool_cp), free_chunks_num, and the
bucket id assigned round-robin. -/
structure Cand where
  pool : Nat
  chain : List Chunk
  cnt : Nat
  bid : Nat
deriving Repr, DecidableEq

/-- Pass 1: walk the free list; every chunk that is first at its pool is
unlinked and becomes a candidate header with free_chunks_num = 1 and bucket
id n % 8 where n counts the candidates created so far.  Returns the remaining
free list (order preserved) and the candidate headers in creation order. -/
def pass1 : List Chunk → Nat → List Chunk × List Cand
  | [], _ => ([], [])
  | c :: rest, n =>
    if c.2 = 0 then
      let r := pass1 rest (n + 1)
      (r.1, ⟨c.1, [], 1, n % 8⟩ :: r.2)
    else
      let r := pass1 rest n
      (c :: r.1, r.2)

/-- Does some candidate header belong to pool p?  In the source this is the
magic check on the first chunk of p followed by the confirming linear search
of bucket id (the id stored in the header of a real candidate is its own
bucket, so the search finds exactly the candidates; the magic is only a
heuristic gate and the search rejects every non-candidate). -/
def candMem (cs : List Cand) (p : Nat) : Bool :=
  cs.any fun k => k.pool == p

/-- Increment free_chunks_num of the candidate of pool c.1 and push c on its
local chain (pass 2, the match case of the confirming search). -/
def candBump (cs : List Cand) (c : Chunk) : List Cand :=
  match cs with
  | [] => []
  | k :: ks =>
    if k.pool = c.1 then { k with chain := c :: k.chain, cnt := k.cnt + 1 } :: ks
    else k :: candBump ks c

/-- Pass 2: walk the remaining free list; each chunk whose pool has a
candidate header is unlinked from the global list and moved onto that
candidate local chain, bumping its count. -/
def pass2 : List Chunk → List Cand → List Chunk × List Cand
  | [], cs => ([], cs)
  | c :: rest, cs =>
    if candMem cs c.1 then pass2 rest (candBump cs c)
    else
      let r := pass2 rest cs
      (c :: r.1, r.2)

/-- Pass 3 processing order of the candidates: buckets 0..7 in order; inside a
bucket the candidates are linked with the most recently created first. -/
def procOrder (cs : List Cand) : List Cand :=
  (List.range 8).flatMap fun i => (cs.filter fun k => k.bid == i).reverse

/-- One pass-3 step: a candidate whose free_chunks_num reached N has its pool
released to the heap and the global counter decremented by N; otherwise its
first chunk (relinked in front of its local chain) and the local chain are
pushed back in front of the global free list. -/
def pass3step (N : Nat) (st : PoolAlloc) (k : Cand) : PoolAlloc :=
  if k.cnt = N then
    { st with livePools := st.livePools.erase k.pool, freeCount := st.freeCount - N }
  else
    { st with freeList := (k.pool, 0) :: k.chain ++ st.freeList }

/-- mem_pools_remove_empty_pools: the three passes.  If pass 1 created no
candidate, the pass returns early (the free list was only traversed, with
nothing unlinked). -/
def mem_pools_remove_empty_pools (N : Nat) (s : PoolAlloc) : PoolAlloc :=
  let r1 := pass1 s.freeList 0
  if r1.2.length = 0 then
    { s with freeList := r1.1 }
  else
    let r2 := pass2 r1.1 r1.2
    (procOrder r2.2).foldl (pass3step N) { s with freeList := r2.1 }

/-- Reachable allocator states: any sequence of mem_pools_alloc /
mem_pools_free / mem_pools_remove_empty_pools calls starting from
mem_pools_init.  A freed chunk is, per the allocator contract, a chunk
previously handed out and not yet freed: a chunk of a live pool, with an
in-range index, not currently on the free list. -/
inductive Reach (N : Nat) : PoolAlloc → Prop where
  | init : Reach N mem_pools_init
  | alloc {s : PoolAlloc} : Reach N s → Reach N (mem_pools_alloc N s [] true).2
  | free {s : PoolAlloc} {c : Chunk} : Reach N s → c.1 ∈ s.livePools → c.2 < N →
      c ∉ s.freeList → Reach N (mem_pools_free s c)
  | compact {s : PoolAlloc} : Reach N s → Reach N (mem_pools_remove_empty_pools N s)

/-- The allocator invariant: the recorded counter equals the number of chunks
reachable from the free-list head, the chunks on the list are distinct with
in-range indices, and the live pool blocks are distinct with ids below the
freshness source. -/
structure Inv (N : Nat) (s : PoolAlloc) : Prop where
  count_eq : s.freeCount = s.freeList.length
  nodup : s.freeList.Nodup
  idx_lt : ∀ c ∈ s.freeList, c.2 < N
  pools_nodup : s.livePools.Nodup
  pools_lt : ∀ p ∈ s.livePools, p < s.nextPool

/-- The net effect of pass 2 on one candidate: all the chunks of its pool found
on the remaining free list are collected on its local chain (most recently
visited first) and counted. -/
def pass2fun (rem : List Chunk) (k : Cand) : Cand :=
  { k with chain := (rem.filter fun c => c.1 == k.pool).reverse ++ k.chain,
           cnt := k.cnt + (rem.filter fun c => c.1 == k.pool).length }

/-- The chunks remaining on the global free list after passes 1 and 2. -/
def compactRem (s : PoolAlloc) : List Chunk :=
  (pass2 (pass1 s.freeList 0).1 (pass1 s.freeList 0).2).1

/-- The candidate headers after pass 2. -/
def compactCands (s : PoolAlloc) : List Cand :=
  (pass2 (pass1 s.freeList 0).1 (pass1 s.freeList 0).2).2

/-- The multiset of chunks temporarily held by one candidate header: the first
chunk of its pool plus its local chain. -/
def msGroup (k : Cand) : Multiset Chunk :=
  (k.pool, 0) ::ₘ (k.chain : Multiset Chunk)

/-- Perform n successive mem_pools_alloc calls (no GC side effect, heap
available), collecting the returned chunks in order. -/
def allocRun (N : Nat) (s : PoolAlloc) : Nat → PoolAlloc × List Chunk
  | 0 => (s, [])
  | n + 1 =>
    let r := mem_pools_alloc N s [] true
    let rest := allocRun N r.2 n
    (rest.1, r.1.toList ++ rest.2)

/-- Free the listed chunks in order through mem_pools_free. -/
def freeRun (s : PoolAlloc) (l : List Chunk) : PoolAlloc :=
  l.foldl mem_pools_free s

end JerryMem

/-!
Parser / bytecode-dumper models (parser.cpp, opcodes-dumper.cpp): the
register allocator driving the identifier-to-register optimization, the gate
of that optimization in parse_source_element_list, the varg-header
argument-count rewrite, and the status dispatch of parser_parse_program.
-/

namespace JerryParser

/-- Register-allocator cursors of the dumper.  VM_IDX_EMPTY (the no-register
sentinel 255) is modelled by none. -/
structure DumperRegs where
  jsp_reg_max_for_temps : Nat
  jsp_reg_max_for_local_var : Option Nat
  jsp_reg_max_for_args : Option Nat
deriving Repr, DecidableEq

/-- dumper_start_move_of_vars_to_regs: the local-variable cursor starts at
the temps high-water mark. -/
def dumper_start_move_of_vars_to_regs (d : DumperRegs) : DumperRegs :=
  { d with jsp_reg_max_for_local_var := some d.jsp_reg_max_for_temps }

/-- dumper_start_move_of_args_to_regs: succeeds when enough registers remain
for all arguments; the argument cursor starts at the local-variable cursor
(or at the temps high-water mark when no local variable got a register).
LAST is VM_REG_GENERAL_LAST. -/
def dumper_start_move_of_args_to_regs (LAST : Nat) (d : DumperRegs)
    (args_num : Nat) : Bool × DumperRegs :=
  match d.jsp_reg_max_for_local_var with
  | none =>
    if args_num + d.jsp_reg_max_for_temps ≥ LAST then (false, d)
    else (true, { d with jsp_reg_max_for_args := some d.jsp_reg_max_for_temps })
  | some mlv =>
    if args_num + mlv ≥ LAST then (false, d)
    else (true, { d with jsp_reg_max_for_args := some mlv })

/-- The register-assignment step of dumper_try_replace_identifier_name_with_reg:
an argument takes the next argument register; a local variable takes the next
local-variable register unless the register file is exhausted, in which case
the replacement fails and the variable stays lexical. -/
def dumper_alloc_reg_for_var (LAST : Nat) (d : DumperRegs) (is_arg : Bool) :
    Option (Nat × DumperRegs) :=
  if is_arg then
    match d.jsp_reg_max_for_args with
    | none => none
    | some ma => some (ma + 1, { d with jsp_reg_max_for_args := some (ma + 1) })
  else
    match d.jsp_reg_max_for_local_var with
    | none => none
    | some mlv =>
      if mlv = LAST then none
      else some (mlv + 1, { d with jsp_reg_max_for_local_var := some (mlv + 1) })

/-- The three register counts carried by the reg_var_decl header
instruction. -/
structure RegVarDeclCounts where
  tmp_regs_num : Nat
  local_var_regs_num : Nat
  arg_regs_num : Nat
deriving Repr, DecidableEq

/-- rewrite_reg_var_decl: writes the reg_var_decl template with the register
counts of the finished scope and resets the cursors.  Faithful to the
source, including that jsp_reg_max_for_local_var is reset to VM_IDX_EMPTY
before the argument-register branch reads it, so the arg_regs_num
computation always falls into the "no local variables" case.
FIRST is VM_REG_GENERAL_FIRST. -/
def rewrite_reg_var_decl (FIRST : Nat) (d : DumperRegs) :
    RegVarDeclCounts × DumperRegs :=
  let tmp := d.jsp_reg_max_for_temps - FIRST + 1
  let step1 :=
    match d.jsp_reg_max_for_local_var with
    | some mlv => (mlv - d.jsp_reg_max_for_temps,
        { d with jsp_reg_max_for_local_var := none })
    | none => (0, d)
  let d1 := step1.2
  let step2 :=
    match d1.jsp_reg_max_for_args with
    | some ma =>
      ((match d1.jsp_reg_max_for_local_var with
        | some mlv => ma - mlv
        | none => ma - d1.jsp_reg_max_for_temps),
       { d1 with jsp_reg_max_for_args := none })
    | none => (0, d1)
  (⟨tmp, step1.1, step2.1⟩, step2.2)

/-- Scope type of a scopes-tree node. -/
inductive ScopeType
  | globalScope
  | evalScope
  | functionScope
deriving Repr, DecidableEq

/-- The scopes-tree flags read by the tail of parse_source_element_list. -/
structure ScopesTreeNode where
  strict_mode : Bool
  ref_eval : Bool
  ref_arguments : Bool
  contains_with : Bool
  contains_try : Bool
  contains_delete : Bool
  contains_functions : Bool
  scopeType : ScopeType
deriving Repr, DecidableEq

/-- may_replace_vars_with_regs (parse_source_element_list): none of the six
blocking conditions holds. -/
def may_replace_vars_with_regs (t : ScopesTreeNode) : Bool :=
  !t.ref_eval && !t.ref_arguments && !t.contains_with && !t.contains_try &&
    !t.contains_delete && !t.contains_functions

/-- The full gate around the identifier-to-register optimization block:
is_try_replace_local_vars_with_regs (false for global code, eval code and
dynamically constructed functions), a function scope, and
may_replace_vars_with_regs. -/
def optimization_attempted (is_try_replace_local_vars_with_regs : Bool)
    (t : ScopesTreeNode) : Bool :=
  is_try_replace_local_vars_with_regs &&
    (t.scopeType == ScopeType.functionScope) && may_replace_vars_with_regs t

/-- The non-parameter-variables loop of the optimization block: each variable
is given the next local-variable register; a variable for which no register
remains stays lexical and the loop goes on. -/
def moveVarsToRegs (LAST : Nat) : DumperRegs → List Nat → List (Nat × Nat) × DumperRegs
  | d, [] => ([], d)
  | d, v :: vs =>
    match dumper_alloc_reg_for_var LAST d false with
    | none => moveVarsToRegs LAST d vs
    | some (r, d1) =>
      let rest := moveVarsToRegs LAST d1 vs
      ((v, r) :: rest.1, rest.2)

/-- The parameters loop: every parameter is given the next argument register
(the source asserts this cannot fail once dumper_start_move_of_args_to_regs
agreed). -/
def moveArgsToRegs (LAST : Nat) : DumperRegs → List Nat → List (Nat × Nat) × DumperRegs
  | d, [] => ([], d)
  | d, a :: ps =>
    match dumper_alloc_reg_for_var LAST d true with
    | none => ([], d)
    | some (r, d1) =>
      let rest := moveArgsToRegs LAST d1 ps
      ((a, r) :: rest.1, rest.2)

/-- The identifier-to-register replacements performed by the tail of
parse_source_element_list for a parsed scope: nothing when the gate is
closed; otherwise the local variables are moved to registers, and the
parameters too when dumper_start_move_of_args_to_regs succeeds. -/
def parse_source_element_list_replacements (LAST : Nat)
    (is_try_replace_local_vars_with_regs : Bool) (t : ScopesTreeNode)
    (vars params : List Nat) (d : DumperRegs) : List (Nat × Nat) :=
  if optimization_attempted is_try_replace_local_vars_with_regs t then
    let d1 := dumper_start_move_of_vars_to_regs d
    let rv := moveVarsToRegs LAST d1 vars
    let ra := dumper_start_move_of_args_to_regs LAST rv.2 params.length
    if ra.1 then rv.1 ++ (moveArgsToRegs LAST ra.2 params).1
    else rv.1
  else []

/-- The kind of varg header being rewritten (the opcode found at the top of
the varg_headers stack). -/
inductive VargKind
  | funcExprN
  | constructN
  | callN
  | funcDeclN
  | arrayDecl
  | objDecl
deriving Repr, DecidableEq

/-- rewrite_varg_header_set_args_count: checks the accumulated argument count
against the limit of the header kind and writes it into the header operands
(8-bit casts of the count for function-like headers; the count split into
high and low bytes for array and object literals).  A count over the limit
raises SyntaxError (modelled as the error message). -/
def rewrite_varg_header_set_args_count (k : VargKind) (args_count : Nat) :
    Except String (Nat × Nat) :=
  match k with
  | VargKind.funcExprN | VargKind.constructN | VargKind.callN =>
    if args_count > 255 then
      Except.error "No more than 255 formal parameters / arguments are currently supported"
    else
      Except.ok (args_count % 256, 0)
  | VargKind.funcDeclN =>
    if args_count > 255 then
      Except.error "No more than 255 formal parameters are currently supported"
    else
      Except.ok (args_count % 256, 0)
  | VargKind.arrayDecl | VargKind.objDecl =>
    if args_count > 65535 then
      Except.error "No more than 65535 formal parameters are currently supported"
    else
      Except.ok (args_count / 256 % 256, args_count % 256)

/-- The two early-error kinds recorded before the non-local escape to the
recovery point (jsp_early_error_t). -/
inductive EarlyErrorKind
  | earlySyn
  | earlyRef
deriving Repr, DecidableEq

/-- The status returned by parser_parse_program (jsp_status_t). -/
inductive JspStatus
  | statusOk
  | statusSynErr
  | statusRefErr
deriving Repr, DecidableEq

/-- parser_parse_program: the protected block either completes, producing the
bytecode image merged by the serializer (modelled from the spec: the
serializer is external and its merge yields the non-null image), or escapes
to the recovery point with the recorded early-error kind; on the error path
the out-parameter for the bytecode is set to NULL (none) and the status is
chosen by the recorded kind. -/
def parser_parse_program {β : Type _} (run : Except EarlyErrorKind β) :
    JspStatus × Option β :=
  match run with
  | Except.ok bytecode => (JspStatus.statusOk, some bytecode)
  | Except.error e =>
    (match e with
     | EarlyErrorKind.earlySyn => JspStatus.statusSynErr
     | EarlyErrorKind.earlyRef => JspStatus.statusRefErr,
     none)

/-- parser_parse_script delegates to parser_parse_program. -/
def parser_parse_script {β : Type _} (run : Except EarlyErrorKind β) :
    JspStatus × Option β :=
  parser_parse_program run

/-- parser_parse_eval delegates to parser_parse_program. -/
def parser_parse_eval {β : Type _} (run : Except EarlyErrorKind β) :
    JspStatus × Option β :=
  parser_parse_program run

end JerryParser

namespace JerryMem

/-! ## Pass 1 lemmas -/

theorem pass1_fst (l : List Chunk) (n : Nat) :
    (pass1 l n).1 = l.filter fun c => !(c.2 == 0) := by
  induction l generalizing n with
  | nil => rfl
  | cons c rest ih =>
    by_cases h : c.2 = 0 <;> simp [pass1, h, List.filter_cons, ih]

theorem pass1_pools (l : List Chunk) (n : Nat) :
    ((pass1 l n).2).map Cand.pool = (l.filter fun c => c.2 == 0).map Prod.fst := by
  induction l generalizing n with
  | nil => rfl
  | cons c rest ih =>
    by_cases h : c.2 = 0 <;> simp [pass1, h, List.filter_cons, ih]

theorem pass1_shape (l : List Chunk) (n : Nat) :
    ∀ k ∈ (pass1 l n).2, k.chain = [] ∧ k.cnt = 1 ∧ k.bid < 8 := by
  induction l generalizing n with
  | nil => intro k hk; simp [pass1] at hk
  | cons c rest ih =>
    intro k hk
    by_cases h : c.2 = 0
    · simp only [pass1, h, if_pos rfl] at hk
      rcases List.mem_cons.mp hk with hk | hk
      · subst hk; exact ⟨rfl, rfl, Nat.mod_lt _ (by norm_num)⟩
      · exact ih (n + 1) k hk
    · simp only [pass1, h, if_neg h] at hk
      exact ih n k hk

/-! ## Pass 2 lemmas -/

theorem candBump_pools (cs : List Cand) (c : Chunk) :
    (candBump cs c).map Cand.pool = cs.map Cand.pool := by
  induction cs with
  | nil => rfl
  | cons k ks ih =>
    by_cases h : k.pool = c.1 <;> simp [candBump, h, ih]

theorem candMem_candBump (cs : List Cand) (c : Chunk) (p : Nat) :
    candMem (candBump cs c) p = candMem cs p := by
  induction cs with
  | nil => rfl
  | cons k ks ih =>
    by_cases h : k.pool = c.1 <;> simp [candBump, candMem, h, List.any_cons] at ih ⊢ <;>
      rw [ih]

theorem pass2fun_nil (k : Cand) : pass2fun [] k = k := rfl

theorem candBump_map_pass2fun (cs : List Cand) (c : Chunk) (rest : List Chunk)
    (hnd : (cs.map Cand.pool).Nodup) :
    (candBump cs c).map (pass2fun rest) = cs.map (pass2fun (c :: rest)) := by
  induction cs with
  | nil => rfl
  | cons k ks ih =>
    simp only [List.map_cons, List.nodup_cons] at hnd
    by_cases h : k.pool = c.1
    · simp only [candBump, if_pos h, List.map_cons]
      congr 1
      · simp only [pass2fun, List.filter_cons, h, beq_self_eq_true, if_pos trivial]
        simp [List.reverse_cons, Nat.add_comm, Nat.add_assoc, Nat.add_left_comm]
      · apply List.map_congr_left
        intro k' hk'
        have hne : (c.1 == k'.pool) = false := by
          simp only [beq_eq_false_iff_ne]
          intro he
          have hmem : k.pool ∈ List.map Cand.pool ks := by
            rw [h, he]
            exact List.mem_map.mpr ⟨k', hk', rfl⟩
          exact hnd.1 hmem
        simp [pass2fun, List.filter_cons, hne]
    · simp only [candBump, if_neg h, List.map_cons, ih hnd.2]
      congr 1
      have hne : (c.1 == k.pool) = false := by
        simp only [beq_eq_false_iff_ne]; exact fun he => h he.symm
      simp [pass2fun, List.filter_cons, hne]

theorem pass2_char (rem : List Chunk) (cs : List Cand)
    (h : (cs.map Cand.pool).Nodup) :
    (pass2 rem cs).1 = rem.filter (fun c => !(candMem cs c.1)) ∧
    (pass2 rem cs).2 = cs.map (pass2fun rem) := by
  induction rem generalizing cs with
  | nil =>
    refine ⟨rfl, ?_⟩
    simp only [pass2]
    rw [List.map_congr_left fun k _ => pass2fun_nil k]
    exact (List.map_id cs).symm
  | cons c rest ih =>
    cases hc : candMem cs c.1 with
    | true =>
      have hnd2 : ((candBump cs c).map Cand.pool).Nodup := by
        rw [candBump_pools]; exact h
      obtain ⟨ih1, ih2⟩ := ih (candBump cs c) hnd2
      refine ⟨?_, ?_⟩
      · simp only [pass2, hc, if_pos trivial, ih1, List.filter_cons, Bool.not_true,
          if_neg (by simp : ¬((false : Bool) = true))]
        apply List.filter_congr
        intro x _
        rw [candMem_candBump]
      · simp only [pass2, hc, if_pos trivial, ih2]
        exact candBump_map_pass2fun cs c rest h
    | false =>
      obtain ⟨ih1, ih2⟩ := ih cs h
      refine ⟨?_, ?_⟩
      · simp only [pass2, hc, if_neg (by simp : ¬((false : Bool) = true)), ih1,
          List.filter_cons, Bool.not_false, if_pos trivial]
      · simp only [pass2, hc, if_neg (by simp : ¬((false : Bool) = true)), ih2]
        apply List.map_congr_left
        intro k hk
        have hne : (c.1 == k.pool) = false := by
          have hall := List.any_eq_false.mp hc k hk
          simp only [beq_eq_false_iff_ne]
          simp only [beq_iff_eq] at hall
          exact fun he => hall he.symm
        simp [pass2fun, List.filter_cons, hne]

theorem pass2_pools (rem : List Chunk) (cs : List Cand)
    (h : (cs.map Cand.pool).Nodup) :
    ((pass2 rem cs).2).map Cand.pool = cs.map Cand.pool := by
  rw [(pass2_char rem cs h).2]
  simp [pass2fun, Function.comp]

/-! ## Pass 3 lemmas -/

theorem pass3_nextPool (N : Nat) (cs : List Cand) (st : PoolAlloc) :
    (cs.foldl (pass3step N) st).nextPool = st.nextPool := by
  induction cs generalizing st with
  | nil => rfl
  | cons k ks ih =>
    rw [List.foldl_cons, ih]
    by_cases h : k.cnt = N <;> simp [pass3step, h]

theorem pass3_freeList (N : Nat) (cs : List Cand) (st : PoolAlloc) :
    (cs.foldl (pass3step N) st).freeList =
      ((cs.filter fun k => !(k.cnt == N)).reverse.map fun k => (k.pool, 0) :: k.chain).flatten
        ++ st.freeList := by
  induction cs generalizing st with
  | nil => rfl
  | cons k ks ih =>
    rw [List.foldl_cons, ih]
    by_cases h : k.cnt = N
    · simp [pass3step, h, List.filter_cons]
    · simp only [pass3step, if_neg h, List.filter_cons, h, beq_iff_eq,
        if_pos (by simp [h] : (!(k.cnt == N)) = true), List.reverse_cons, List.map_append,
        List.flatten_append]
      simp

theorem pass3step_full (N : Nat) (st : PoolAlloc) (k : Cand) (hk : k.cnt = N) :
    pass3step N st k = ⟨st.freeList, st.freeCount - N, st.livePools.erase k.pool,
      st.nextPool⟩ := by
  simp [pass3step, hk]

theorem pass3step_notFull (N : Nat) (st : PoolAlloc) (k : Cand) (hk : ¬k.cnt = N) :
    pass3step N st k = ⟨(k.pool, 0) :: k.chain ++ st.freeList, st.freeCount,
      st.livePools, st.nextPool⟩ := by
  simp [pass3step, hk]

theorem pass3_count (N : Nat) (cs : List Cand) (st : PoolAlloc)
    (h : N * (cs.countP fun k => k.cnt == N) ≤ st.freeCount) :
    (cs.foldl (pass3step N) st).freeCount =
      st.freeCount - N * (cs.countP fun k => k.cnt == N) := by
  induction cs generalizing st with
  | nil => rfl
  | cons k ks ih =>
    rw [List.foldl_cons]
    by_cases hk : k.cnt = N
    · have hcnt : ((k :: ks).countP fun k => k.cnt == N) =
          (ks.countP fun k => k.cnt == N) + 1 := by
        rw [List.countP_cons]; simp [hk]
      rw [hcnt, Nat.mul_succ] at h ⊢
      rw [pass3step_full N st k hk, ih]
      · simp only
        omega
      · simp only
        omega
    · have hcnt : ((k :: ks).countP fun k => k.cnt == N) = ks.countP fun k => k.cnt == N := by
        rw [List.countP_cons]; simp [hk]
      rw [hcnt] at h ⊢
      rw [pass3step_notFull N st k hk, ih]
      exact h

theorem pass3_live (N : Nat) (cs : List Cand) (st : PoolAlloc)
    (h : st.livePools.Nodup) :
    (cs.foldl (pass3step N) st).livePools.Nodup ∧
    ∀ q, (q ∈ (cs.foldl (pass3step N) st).livePools ↔
      q ∈ st.livePools ∧ ∀ k ∈ cs, k.cnt = N → k.pool ≠ q) := by
  induction cs generalizing st with
  | nil => exact ⟨h, fun q => by simp⟩
  | cons k ks ih =>
    rw [List.foldl_cons]
    by_cases hk : k.cnt = N
    · rw [pass3step_full N st k hk]
      obtain ⟨ih1, ih2⟩ := ih ⟨st.freeList, st.freeCount - N, st.livePools.erase k.pool,
        st.nextPool⟩ (by simpa using h.erase k.pool)
      refine ⟨ih1, fun q => ?_⟩
      rw [ih2 q]
      simp only
      constructor
      · rintro ⟨hq, hrest⟩
        have hme := (h.mem_erase_iff).mp hq
        refine ⟨hme.2, ?_⟩
        intro k' hk' hcnt
        rcases List.mem_cons.mp hk' with hk' | hk'
        · subst hk'; exact fun he => hme.1 he.symm
        · exact hrest k' hk' hcnt
      · rintro ⟨hq, hall⟩
        refine ⟨(h.mem_erase_iff).mpr ⟨?_, hq⟩, ?_⟩
        · exact fun he => hall k (List.mem_cons_self k ks) hk he.symm
        · exact fun k' hk' hcnt => hall k' (List.mem_cons_of_mem k hk') hcnt
    · rw [pass3step_notFull N st k hk]
      obtain ⟨ih1, ih2⟩ := ih ⟨(k.pool, 0) :: k.chain ++ st.freeList, st.freeCount,
        st.livePools, st.nextPool⟩ h
      refine ⟨ih1, fun q => ?_⟩
      rw [ih2 q]
      simp only
      constructor
      · rintro ⟨hq, hrest⟩
        refine ⟨hq, ?_⟩
        intro k' hk' hcnt
        rcases List.mem_cons.mp hk' with hk' | hk'
        · subst hk'; exact absurd hcnt hk
        · exact hrest k' hk' hcnt
      · rintro ⟨hq, hall⟩
        exact ⟨hq, fun k' hk' hcnt => hall k' (List.mem_cons_of_mem k hk') hcnt⟩

theorem pass3_noFull (N : Nat) (cs : List Cand) (st : PoolAlloc)
    (h : ∀ k ∈ cs, k.cnt ≠ N) :
    (cs.foldl (pass3step N) st).livePools = st.livePools ∧
    (cs.foldl (pass3step N) st).freeCount = st.freeCount := by
  induction cs generalizing st with
  | nil => exact ⟨rfl, rfl⟩
  | cons k ks ih =>
    rw [List.foldl_cons]
    have hk := h k (List.mem_cons_self k ks)
    rw [pass3step_notFull N st k hk]
    exact ih _ (fun k' hk' => h k' (List.mem_cons_of_mem k hk'))

/-! ## Processing-order permutation -/

theorem filter_or_perm {α : Type _} (l : List α) (p q : α → Bool)
    (hdisj : ∀ a, ¬(p a = true ∧ q a = true)) :
    List.Perm (l.filter p ++ l.filter q) (l.filter fun a => p a || q a) := by
  induction l with
  | nil => rfl
  | cons a l ih =>
    cases hp : p a
    · cases hq : q a
      · simpa [List.filter_cons, hp, hq] using ih
      · simp only [List.filter_cons, hp, hq, Bool.false_or, Bool.false_eq_true,
          if_false, if_true]
        exact (List.perm_middle).trans (ih.cons a)
    · have hq : q a = false := by
        cases hq : q a
        · rfl
        · exact absurd ⟨hp, hq⟩ (hdisj a)
      simp only [List.filter_cons, hp, hq, Bool.true_or, if_true, List.cons_append]
      exact ih.cons a

theorem flatMap_range_filter_perm (m : Nat) (l : List Cand) :
    List.Perm ((List.range m).flatMap fun i => (l.filter fun k => k.bid == i).reverse)
      (l.filter fun k => decide (k.bid < m)) := by
  induction m with
  | zero => simp
  | succ m ih =>
    rw [List.range_succ, List.flatMap_append]
    have h1 : List.Perm
        (((List.range m).flatMap fun i => (l.filter fun k => k.bid == i).reverse)
          ++ ([m].flatMap fun i => (l.filter fun k => k.bid == i).reverse))
        ((l.filter fun k => decide (k.bid < m)) ++ (l.filter fun k => k.bid == m)) := by
      refine List.Perm.append ih ?_
      simp only [List.flatMap_cons, List.flatMap_nil, List.append_nil]
      exact List.reverse_perm _
    refine h1.trans ?_
    refine (filter_or_perm l _ _ ?_).trans ?_
    · intro k ⟨h1, h2⟩
      simp only [decide_eq_true_eq] at h1
      simp only [beq_iff_eq] at h2
      omega
    · apply List.Perm.of_eq
      apply List.filter_congr
      intro k _
      cases hlt : decide (k.bid < m + 1)
      · simp only [decide_eq_false_iff_not] at hlt
        have h1 : decide (k.bid < m) = false := by simp; omega
        have h2 : (k.bid == m) = false := by simp; omega
        rw [h1, h2]; rfl
      · simp only [decide_eq_true_eq] at hlt
        rcases Nat.lt_succ_iff_lt_or_eq.mp hlt with h | h
        · have h1 : decide (k.bid < m) = true := by simpa using h
          rw [h1]; rfl
        · have h2 : (k.bid == m) = true := by simpa using h
          rw [h2]; simp

theorem procOrder_perm (cs : List Cand) (h : ∀ k ∈ cs, k.bid < 8) :
    List.Perm (procOrder cs) cs := by
  refine (flatMap_range_filter_perm 8 cs).trans ?_
  rw [List.filter_eq_self.mpr]
  intro k hk
  simpa using h k hk

/-! ## Combined characterization of the compacting pass -/

theorem pass2_nil (rem : List Chunk) : pass2 rem [] = (rem, []) := by
  induction rem with
  | nil => rfl
  | cons c rest ih => simp [pass2, candMem, ih]

theorem compact_eq (N : Nat) (s : PoolAlloc) :
    mem_pools_remove_empty_pools N s =
      (procOrder (compactCands s)).foldl (pass3step N)
        ⟨compactRem s, s.freeCount, s.livePools, s.nextPool⟩ := by
  simp only [mem_pools_remove_empty_pools, compactRem, compactCands]
  by_cases h : ((pass1 s.freeList 0).2).length = 0
  · have hnil : (pass1 s.freeList 0).2 = [] := List.length_eq_zero.mp h
    rw [if_pos h, hnil, pass2_nil]
    rfl
  · rw [if_neg h]

theorem coe_flatten_sum {α : Type _} (L : List (List α)) :
    ((L.flatten : List α) : Multiset α) = (L.map fun l => ((l : List α) : Multiset α)).sum := by
  induction L with
  | nil => rfl
  | cons l L ih =>
    simp only [List.flatten_cons, List.map_cons, List.sum_cons, ← Multiset.coe_add, ih]

theorem sum_map_add₂ {α : Type _} (l : List α) (f g : α → Multiset Chunk) :
    (l.map f).sum + (l.map g).sum = (l.map fun a => f a + g a).sum := by
  induction l with
  | nil => simp
  | cons a l ih =>
    simp only [List.map_cons, List.sum_cons, ← ih]
    rw [add_assoc, add_assoc]
    congr 1
    rw [← add_assoc, ← add_assoc, add_comm (l.map f).sum (g a)]

theorem coe_map_single (ps : List Nat) :
    ((ps.map fun p => ((p, 0) : Chunk) : List Chunk) : Multiset Chunk) =
      (ps.map fun p => ({((p, 0) : Chunk)} : Multiset Chunk)).sum := by
  induction ps with
  | nil => rfl
  | cons p ps ih =>
    simp only [List.map_cons, List.sum_cons, ← Multiset.cons_coe, ih]
    rfl

/-- Splitting a list of chunks by owning pool: the chunks of the pools in ps
(taken pool by pool) together with the chunks of no pool in ps. -/
theorem rem_split_m (rem : List Chunk) (ps : List Nat) (hnd : ps.Nodup) :
    ((rem : List Chunk) : Multiset Chunk) =
      ↑(rem.filter fun c => !(ps.any fun q => q == c.1))
        + (ps.map fun p => ((rem.filter fun c => c.1 == p : List Chunk) : Multiset Chunk)).sum := by
  induction ps generalizing rem with
  | nil =>
    simp only [List.any_nil, Bool.not_false, List.map_nil, List.sum_nil, add_zero]
    rw [List.filter_eq_self.mpr fun _ _ => rfl]
  | cons p ps ih =>
    rw [List.nodup_cons] at hnd
    have hsplit := List.filter_append_perm (fun c : Chunk => c.1 == p) rem
    have h0 : ((rem : List Chunk) : Multiset Chunk) =
        ↑(rem.filter fun c => c.1 == p) + ↑(rem.filter fun c => !(c.1 == p)) := by
      rw [Multiset.coe_add, Multiset.coe_eq_coe]
      exact hsplit.symm
    rw [h0, ih (rem.filter fun c => !(c.1 == p)) hnd.2]
    have hf1 : ((rem.filter fun c => !(c.1 == p)).filter fun c => !(ps.any fun q => q == c.1))
        = rem.filter fun c => !((p :: ps).any fun q => q == c.1) := by
      rw [List.filter_filter]
      apply List.filter_congr
      intro c _
      by_cases hc : c.1 = p
      · simp [hc]
      · have h1 : (c.1 == p) = false := by simpa using hc
        have h2 : (p == c.1) = false := by simpa using fun he => hc he.symm
        simp [h1, h2]
    have hf2 : (ps.map fun q =>
          (((rem.filter fun c => !(c.1 == p)).filter fun c => c.1 == q : List Chunk) : Multiset Chunk))
        = ps.map fun q => ((rem.filter fun c => c.1 == q : List Chunk) : Multiset Chunk) := by
      apply List.map_congr_left
      intro q hq
      have hqp : q ≠ p := fun he => hnd.1 (he ▸ hq)
      congr 1
      rw [List.filter_filter]
      apply List.filter_congr
      intro c _
      by_cases hc : c.1 = q
      · have h1 : (c.1 == p) = false := by
          simp only [beq_eq_false_iff_ne]
          exact fun he => hqp (hc.symm.trans he)
        simp [hc, h1, hqp]
      · have h1 : (c.1 == q) = false := by simpa using hc
        simp [h1]
    rw [hf1, hf2, List.map_cons, List.sum_cons]
    rw [← add_assoc, add_comm (↑(rem.filter fun c => c.1 == p))
      (↑(rem.filter fun c => !((p :: ps).any fun q => q == c.1)) : Multiset Chunk), add_assoc]

theorem any_map_pool (cs : List Cand) (p : Nat) :
    ((cs.map Cand.pool).any fun q => q == p) = candMem cs p := by
  induction cs with
  | nil => rfl
  | cons k ks ih =>
    simp only [candMem, List.map_cons, List.any_cons] at ih ⊢
    rw [ih]

theorem cs1_pools_nodup (s : PoolAlloc) (hs : s.freeList.Nodup) :
    (((pass1 s.freeList 0).2).map Cand.pool).Nodup := by
  rw [pass1_pools]
  refine List.Nodup.map_on ?_ (hs.filter _)
  intro x hx y hy hxy
  have hx0 : x.2 = 0 := by simpa using List.of_mem_filter hx
  have hy0 : y.2 = 0 := by simpa using List.of_mem_filter hy
  exact Prod.ext hxy (hx0.trans hy0.symm)

theorem compactCands_pools (s : PoolAlloc) (hs : s.freeList.Nodup) :
    (compactCands s).map Cand.pool = ((pass1 s.freeList 0).2).map Cand.pool :=
  pass2_pools _ _ (cs1_pools_nodup s hs)

theorem compactCands_pools_nodup (s : PoolAlloc) (hs : s.freeList.Nodup) :
    ((compactCands s).map Cand.pool).Nodup := by
  rw [compactCands_pools s hs]
  exact cs1_pools_nodup s hs

theorem compactCands_shape (s : PoolAlloc) (hs : s.freeList.Nodup) :
    ∀ k ∈ compactCands s,
      k.chain = ((pass1 s.freeList 0).1.filter fun c => c.1 == k.pool).reverse ∧
      k.cnt = 1 + ((pass1 s.freeList 0).1.filter fun c => c.1 == k.pool).length ∧
      k.bid < 8 := by
  intro k hk
  rw [compactCands, (pass2_char _ _ (cs1_pools_nodup s hs)).2] at hk
  obtain ⟨k0, hk0, rfl⟩ := List.mem_map.mp hk
  obtain ⟨hch, hcnt, hbid⟩ := pass1_shape s.freeList 0 k0 hk0
  refine ⟨?_, ?_, ?_⟩
  · simp [pass2fun, hch]
  · simp [pass2fun, hcnt, Nat.add_comm]
  · simpa [pass2fun] using hbid

theorem compactRem_eq (s : PoolAlloc) (hs : s.freeList.Nodup) :
    compactRem s = (pass1 s.freeList 0).1.filter
      fun c => !(candMem ((pass1 s.freeList 0).2) c.1) :=
  (pass2_char _ _ (cs1_pools_nodup s hs)).1

theorem first_chunks_eq (s : PoolAlloc) :
    s.freeList.filter (fun c => c.2 == 0) =
      (((pass1 s.freeList 0).2).map Cand.pool).map fun p => ((p, 0) : Chunk) := by
  rw [pass1_pools, List.map_map]
  conv_lhs => rw [← List.map_id (s.freeList.filter fun c => c.2 == 0)]
  apply List.map_congr_left
  intro c hc
  have hc0 : c.2 = 0 := by simpa using List.of_mem_filter hc
  exact Prod.ext rfl hc0

/-- The decomposition established by passes 1 and 2: the original free list
is, as a multiset, the remaining list plus the chunks held by the candidate
headers. -/
theorem compact_decomp (s : PoolAlloc) (hs : s.freeList.Nodup) :
    (s.freeList : Multiset Chunk) =
      ↑(compactRem s) + ((compactCands s).map msGroup).sum := by
  have hps : (((pass1 s.freeList 0).2).map Cand.pool).Nodup := cs1_pools_nodup s hs
  have h0 : (s.freeList : Multiset Chunk) =
      ↑(s.freeList.filter fun c => c.2 == 0) + ↑((pass1 s.freeList 0).1) := by
    rw [pass1_fst, Multiset.coe_add, Multiset.coe_eq_coe]
    exact (List.filter_append_perm _ s.freeList).symm
  have hcand : ∀ p : Nat,
      ((((pass1 s.freeList 0).2).map Cand.pool).any fun q => q == p) =
        candMem ((pass1 s.freeList 0).2) p :=
    fun p => any_map_pool ((pass1 s.freeList 0).2) p
  have h2 := rem_split_m ((pass1 s.freeList 0).1) (((pass1 s.freeList 0).2).map Cand.pool) hps
  simp only [hcand] at h2
  rw [h0, h2, first_chunks_eq s, coe_map_single, ← compactRem_eq s hs]
  rw [← add_assoc, add_comm
    ((((pass1 s.freeList 0).2).map Cand.pool).map fun p => ({((p,0) : Chunk)} : Multiset Chunk)).sum
    (↑(compactRem s) : Multiset Chunk), add_assoc, sum_map_add₂]
  congr 1
  rw [← compactCands_pools s hs, List.map_map]
  refine congrArg List.sum ?_
  apply List.map_congr_left
  intro k hk
  obtain ⟨hch, -, -⟩ := compactCands_shape s hs k hk
  simp only [Function.comp]
  rw [msGroup, hch, Multiset.coe_reverse, Multiset.singleton_add]

/-- The free list after the full compacting pass: the remaining list plus the
relinked chunks of every candidate that was not released. -/
theorem compact_final_ms (N : Nat) (s : PoolAlloc) (hs : s.freeList.Nodup) :
    ((mem_pools_remove_empty_pools N s).freeList : Multiset Chunk) =
      ↑(compactRem s) +
        (((compactCands s).filter fun k => !(k.cnt == N)).map msGroup).sum := by
  have hbid : ∀ k ∈ compactCands s, k.bid < 8 :=
    fun k hk => (compactCands_shape s hs k hk).2.2
  rw [compact_eq, pass3_freeList]
  rw [← Multiset.coe_add, coe_flatten_sum, List.map_map, List.map_reverse, List.sum_reverse]
  simp only
  rw [add_comm]
  congr 1
  have hperm : List.Perm (((procOrder (compactCands s)).filter fun k => !(k.cnt == N)))
      ((compactCands s).filter fun k => !(k.cnt == N)) :=
    (procOrder_perm _ hbid).filter _
  refine (List.Perm.sum_eq (hperm.map _)).trans ?_
  apply congrArg
  apply List.map_congr_left
  intro k _
  simp only [Function.comp]
  rw [msGroup, Multiset.cons_coe]

/-! ## Counters, live pools and the invariant across the compacting pass -/

theorem card_sum_map {α : Type _} (L : List α) (f : α → Multiset Chunk) :
    Multiset.card ((L.map f).sum) = (L.map fun a => Multiset.card (f a)).sum := by
  induction L with
  | nil => rfl
  | cons a L ih => simp [List.sum_cons, ih]

theorem sum_const_nat (L : List Cand) (n : Nat) :
    ((L.map fun _ => n).sum) = L.length * n := by
  induction L with
  | nil => simp
  | cons a L ih => simp [List.sum_cons, ih, Nat.succ_mul, Nat.add_comm]

theorem sum_cnt_split (cs : List Cand) (N : Nat) :
    ((cs.map Cand.cnt).sum : Nat) =
      ((cs.filter fun k => k.cnt == N).map Cand.cnt).sum
        + ((cs.filter fun k => !(k.cnt == N)).map Cand.cnt).sum := by
  have hperm := (List.filter_append_perm (fun k : Cand => k.cnt == N) cs).map Cand.cnt
  rw [← List.Perm.sum_eq hperm, List.map_append, List.sum_append]

theorem sum_cnt_full (cs : List Cand) (N : Nat) :
    (((cs.filter fun k => k.cnt == N).map Cand.cnt).sum : Nat) =
      N * (cs.countP fun k => k.cnt == N) := by
  have h1 : (cs.filter fun k => k.cnt == N).map Cand.cnt =
      (cs.filter fun k => k.cnt == N).map fun _ => N := by
    apply List.map_congr_left
    intro k hk
    have := List.of_mem_filter hk
    simpa using this
  rw [h1, sum_const_nat, ← List.countP_eq_length_filter, Nat.mul_comm]

theorem msGroup_card (k : Cand) : Multiset.card (msGroup k) = 1 + k.chain.length := by
  rw [msGroup, Multiset.card_cons, Multiset.coe_card, Nat.add_comm]

theorem cands_card_eq_cnt (s : PoolAlloc) (hs : s.freeList.Nodup) :
    ∀ k ∈ compactCands s, Multiset.card (msGroup k) = k.cnt := by
  intro k hk
  obtain ⟨hch, hcnt, -⟩ := compactCands_shape s hs k hk
  rw [msGroup_card, hcnt, hch, List.length_reverse]

theorem compact_len_decomp (s : PoolAlloc) (hs : s.freeList.Nodup) :
    s.freeList.length = (compactRem s).length + ((compactCands s).map Cand.cnt).sum := by
  have h := congrArg Multiset.card (compact_decomp s hs)
  rw [Multiset.coe_card, Multiset.card_add, Multiset.coe_card, card_sum_map] at h
  rw [h]
  congr 1
  refine congrArg List.sum ?_
  apply List.map_congr_left
  intro k hk
  exact cands_card_eq_cnt s hs k hk

theorem compact_len_final (N : Nat) (s : PoolAlloc) (hs : s.freeList.Nodup) :
    (mem_pools_remove_empty_pools N s).freeList.length =
      (compactRem s).length + (((compactCands s).filter fun k => !(k.cnt == N)).map Cand.cnt).sum := by
  have h := congrArg Multiset.card (compact_final_ms N s hs)
  rw [Multiset.coe_card, Multiset.card_add, Multiset.coe_card, card_sum_map] at h
  rw [h]
  congr 1
  refine congrArg List.sum ?_
  apply List.map_congr_left
  intro k hk
  exact cands_card_eq_cnt s hs k (List.mem_of_mem_filter hk)

theorem compact_full_bound (N : Nat) (s : PoolAlloc) (h : Inv N s) :
    N * ((compactCands s).countP fun k => k.cnt == N) ≤ s.freeCount := by
  rw [h.count_eq, compact_len_decomp s h.nodup, ← sum_cnt_full,
    sum_cnt_split (compactCands s) N]
  omega

theorem compact_count (N : Nat) (s : PoolAlloc) (h : Inv N s) :
    (mem_pools_remove_empty_pools N s).freeCount =
      s.freeCount - N * ((compactCands s).countP fun k => k.cnt == N) := by
  have hbid : ∀ k ∈ compactCands s, k.bid < 8 :=
    fun k hk => (compactCands_shape s h.nodup k hk).2.2
  have hcp : ((procOrder (compactCands s)).countP fun k => k.cnt == N) =
      (compactCands s).countP fun k => k.cnt == N :=
    (procOrder_perm _ hbid).countP_eq _
  rw [compact_eq, pass3_count]
  · rw [hcp]
  · rw [hcp]
    exact compact_full_bound N s h

theorem compact_count_eq (N : Nat) (s : PoolAlloc) (h : Inv N s) :
    (mem_pools_remove_empty_pools N s).freeCount =
      (mem_pools_remove_empty_pools N s).freeList.length := by
  rw [compact_count N s h, compact_len_final N s h.nodup, h.count_eq,
    compact_len_decomp s h.nodup, ← sum_cnt_full, sum_cnt_split (compactCands s) N]
  omega

theorem compact_ms_le (N : Nat) (s : PoolAlloc) (hs : s.freeList.Nodup) :
    ((mem_pools_remove_empty_pools N s).freeList : Multiset Chunk) ≤ ↑s.freeList := by
  rw [compact_final_ms N s hs, compact_decomp s hs]
  have hsplit : ((compactCands s).map msGroup).sum =
      (((compactCands s).filter fun k => k.cnt == N).map msGroup).sum
        + (((compactCands s).filter fun k => !(k.cnt == N)).map msGroup).sum := by
    have hperm := (List.filter_append_perm (fun k : Cand => k.cnt == N) (compactCands s)).map msGroup
    rw [← List.Perm.sum_eq hperm, List.map_append, List.sum_append]
  rw [hsplit]
  exact add_le_add_left (Multiset.le_add_left _ _) _

theorem compact_nodup (N : Nat) (s : PoolAlloc) (hs : s.freeList.Nodup) :
    (mem_pools_remove_empty_pools N s).freeList.Nodup :=
  Multiset.coe_nodup.mp
    (Multiset.nodup_of_le (compact_ms_le N s hs) (Multiset.coe_nodup.mpr hs))

theorem compact_mem_sub (N : Nat) (s : PoolAlloc) (hs : s.freeList.Nodup) :
    ∀ c ∈ (mem_pools_remove_empty_pools N s).freeList, c ∈ s.freeList := by
  intro c hc
  have := Multiset.mem_of_le (compact_ms_le N s hs) (Multiset.mem_coe.mpr hc)
  exact Multiset.mem_coe.mp this

theorem compact_live (N : Nat) (s : PoolAlloc) (h : Inv N s) :
    (mem_pools_remove_empty_pools N s).livePools.Nodup ∧
    ∀ q, (q ∈ (mem_pools_remove_empty_pools N s).livePools ↔
      q ∈ s.livePools ∧ ∀ k ∈ compactCands s, k.cnt = N → k.pool ≠ q) := by
  have hbid : ∀ k ∈ compactCands s, k.bid < 8 :=
    fun k hk => (compactCands_shape s h.nodup k hk).2.2
  rw [compact_eq]
  obtain ⟨h1, h2⟩ := pass3_live N (procOrder (compactCands s))
    ⟨compactRem s, s.freeCount, s.livePools, s.nextPool⟩ h.pools_nodup
  refine ⟨h1, fun q => ?_⟩
  rw [h2 q]
  constructor
  · rintro ⟨hq, hall⟩
    exact ⟨hq, fun k hk => hall k ((procOrder_perm _ hbid).mem_iff.mpr hk)⟩
  · rintro ⟨hq, hall⟩
    exact ⟨hq, fun k hk => hall k ((procOrder_perm _ hbid).mem_iff.mp hk)⟩

theorem compact_nextPool (N : Nat) (s : PoolAlloc) :
    (mem_pools_remove_empty_pools N s).nextPool = s.nextPool := by
  rw [compact_eq, pass3_nextPool]

theorem compact_inv (N : Nat) (s : PoolAlloc) (h : Inv N s) :
    Inv N (mem_pools_remove_empty_pools N s) := by
  refine ⟨compact_count_eq N s h, compact_nodup N s h.nodup, ?_, (compact_live N s h).1, ?_⟩
  · intro c hc
    exact h.idx_lt c (compact_mem_sub N s h.nodup c hc)
  · intro p hp
    rw [compact_nextPool]
    exact h.pools_lt p (((compact_live N s h).2 p).mp hp).1

/-! ## Invariant preservation of alloc and free, and reachability -/

theorem mem_pool_init_length (p N : Nat) : (mem_pool_init p N).length = N := by
  simp [mem_pool_init]

theorem mem_pool_init_nodup (p N : Nat) : (mem_pool_init p N).Nodup := by
  refine List.Nodup.map ?_ (List.nodup_range N)
  intro i j hij
  exact congrArg Prod.snd hij

theorem mem_pool_init_idx (p N : Nat) : ∀ c ∈ mem_pool_init p N, c.2 < N := by
  intro c hc
  obtain ⟨i, hi, rfl⟩ := List.mem_map.mp hc
  simpa using List.mem_range.mp hi

theorem mem_pool_init_pool (p N : Nat) : ∀ c ∈ mem_pool_init p N, c.1 = p := by
  intro c hc
  obtain ⟨i, hi, rfl⟩ := List.mem_map.mp hc
  rfl

theorem gcApply_nil (s : PoolAlloc) : gcApply s [] = s := rfl

theorem longpath_empty (N : Nat) (s : PoolAlloc) (hfl : s.freeList = [])
    (hfc : s.freeCount = 0) :
    mem_pools_alloc_longpath N s [] true =
      ⟨mem_pool_init s.nextPool N, N, s.nextPool :: s.livePools, s.nextPool + 1⟩ := by
  simp [mem_pools_alloc_longpath, gcApply_nil, hfc]

theorem popFree_inv (N : Nat) (s1 : PoolAlloc) (h : Inv N s1) : Inv N (popFree s1).2 := by
  cases hl : s1.freeList with
  | nil => simpa [popFree, hl] using h
  | cons c rest =>
    simp only [popFree, hl]
    have hcount := h.count_eq
    rw [hl] at hcount
    refine ⟨?_, ?_, ?_, h.pools_nodup, h.pools_lt⟩
    · simp only [List.length_cons] at hcount
      simp only
      omega
    · have := h.nodup
      rw [hl] at this
      exact this.of_cons
    · intro c' hc'
      refine h.idx_lt c' ?_
      rw [hl]
      exact List.mem_cons_of_mem _ hc'

theorem alloc_inv (N : Nat) (s : PoolAlloc) (h : Inv N s) :
    Inv N (mem_pools_alloc N s [] true).2 := by
  rw [mem_pools_alloc]
  refine popFree_inv N _ ?_
  by_cases he : s.freeList.isEmpty
  · rw [if_pos he]
    have hfl : s.freeList = [] := by simpa using he
    have hfc : s.freeCount = 0 := by rw [h.count_eq, hfl]; rfl
    rw [longpath_empty N s hfl hfc]
    refine ⟨?_, ?_, ?_, ?_, ?_⟩
    · simp [mem_pool_init_length]
    · exact mem_pool_init_nodup _ _
    · exact mem_pool_init_idx _ _
    · simp only
      rw [List.nodup_cons]
      exact ⟨fun hmem => absurd (h.pools_lt _ hmem) (Nat.lt_irrefl _), h.pools_nodup⟩
    · intro p hp
      rcases List.mem_cons.mp hp with hp | hp
      · simp [hp]
      · exact Nat.lt_succ_of_lt (h.pools_lt p hp)
  · rw [if_neg he]
    exact h

theorem free_inv (N : Nat) (s : PoolAlloc) (c : Chunk) (h : Inv N s)
    (hidx : c.2 < N) (hnotin : c ∉ s.freeList) : Inv N (mem_pools_free s c) := by
  refine ⟨?_, ?_, ?_, h.pools_nodup, h.pools_lt⟩
  · simp [mem_pools_free, h.count_eq]
  · simp only [mem_pools_free]
    rw [List.nodup_cons]
    exact ⟨hnotin, h.nodup⟩
  · intro c' hc'
    rcases List.mem_cons.mp hc' with hc' | hc'
    · subst hc'; exact hidx
    · exact h.idx_lt c' hc'

theorem reach_inv (N : Nat) (s : PoolAlloc) (h : Reach N s) : Inv N s := by
  induction h with
  | init => exact ⟨rfl, List.nodup_nil, by simp [mem_pools_init], List.nodup_nil,
      by simp [mem_pools_init]⟩
  | alloc _ ih => exact alloc_inv _ _ ih
  | free _ _ hc2 hc3 ih => exact free_inv _ _ _ ih hc2 hc3
  | compact _ ih => exact compact_inv _ _ ih

/-! ## No pool is fully free after compaction -/

theorem mem_sum_map (L : List Cand) (f : Cand → Multiset Chunk) (a : Chunk) :
    a ∈ (L.map f).sum ↔ ∃ b ∈ L, a ∈ f b := by
  induction L with
  | nil => simp
  | cons x L ih => simp [List.sum_cons, Multiset.mem_add, ih]

theorem countP_sum_map (pr : Chunk → Prop) [DecidablePred pr] (L : List Cand)
    (f : Cand → Multiset Chunk) :
    Multiset.countP pr ((L.map f).sum) = (L.map fun k => Multiset.countP pr (f k)).sum := by
  induction L with
  | nil => simp
  | cons x L ih => simp [List.sum_cons, Multiset.countP_add, ih]

theorem chain_elem_facts (s : PoolAlloc) (hs : s.freeList.Nodup) :
    ∀ k ∈ compactCands s, ∀ c ∈ k.chain, c.1 = k.pool ∧ c.2 ≠ 0 ∧ c ∈ s.freeList := by
  intro k hk c hc
  obtain ⟨hch, -, -⟩ := compactCands_shape s hs k hk
  rw [hch, List.mem_reverse] at hc
  have h1 := List.of_mem_filter hc
  have h2 := List.mem_of_mem_filter hc
  rw [pass1_fst] at h2
  have h3 := List.of_mem_filter h2
  have h4 := List.mem_of_mem_filter h2
  exact ⟨by simpa using h1, by simpa using h3, h4⟩

theorem rem2_elem_facts (s : PoolAlloc) (hs : s.freeList.Nodup) :
    ∀ c ∈ compactRem s, c.2 ≠ 0 ∧ c ∈ s.freeList ∧
      ∀ k ∈ compactCands s, k.pool ≠ c.1 := by
  intro c hc
  rw [compactRem_eq s hs] at hc
  have h1 := List.of_mem_filter hc
  have h2 := List.mem_of_mem_filter hc
  rw [pass1_fst] at h2
  have h3 := List.of_mem_filter h2
  have h4 := List.mem_of_mem_filter h2
  refine ⟨by simpa using h3, h4, ?_⟩
  intro k hk
  have hpool : k.pool ∈ (compactCands s).map Cand.pool := List.mem_map.mpr ⟨k, hk, rfl⟩
  rw [compactCands_pools s hs] at hpool
  obtain ⟨k0, hk0, hk0p⟩ := List.mem_map.mp hpool
  have hany : candMem ((pass1 s.freeList 0).2) c.1 = false := by simpa using h1
  have := List.any_eq_false.mp hany k0 hk0
  simp only [beq_iff_eq] at this
  rw [← hk0p]
  exact this

theorem cnt_le (N : Nat) (s : PoolAlloc) (h : Inv N s) (hN : 1 ≤ N) :
    ∀ k ∈ compactCands s, k.cnt ≤ N := by
  intro k hk
  obtain ⟨-, hcnt, -⟩ := compactCands_shape s h.nodup k hk
  have hremnd : ((pass1 s.freeList 0).1).Nodup := by
    rw [pass1_fst]; exact h.nodup.filter _
  have hFnd : ((pass1 s.freeList 0).1.filter fun c => c.1 == k.pool).Nodup :=
    hremnd.filter _
  have hsub : ((pass1 s.freeList 0).1.filter fun c => c.1 == k.pool) ⊆
      (List.range (N - 1)).map fun i => ((k.pool, i + 1) : Chunk) := by
    intro c hc
    have h1 : c.1 = k.pool := by simpa using List.of_mem_filter hc
    have h2 := List.mem_of_mem_filter hc
    rw [pass1_fst] at h2
    have h3 : c.2 ≠ 0 := by simpa using List.of_mem_filter h2
    have h4 := h.idx_lt c (List.mem_of_mem_filter h2)
    refine List.mem_map.mpr ⟨c.2 - 1, List.mem_range.mpr (by omega), ?_⟩
    refine (Prod.ext h1 ?_).symm
    omega
  have hlen := (List.subperm_of_subset hFnd hsub).length_le
  rw [List.length_map, List.length_range] at hlen
  omega

theorem countP_msGroup_zero (s : PoolAlloc) (hs : s.freeList.Nodup) (k : Cand)
    (hk : k ∈ compactCands s) (p : Nat) (hne : k.pool ≠ p) :
    Multiset.countP (fun c : Chunk => c.1 = p) (msGroup k) = 0 := by
  rw [msGroup, Multiset.countP_cons, if_neg hne, Nat.add_zero, Multiset.coe_countP]
  rw [List.countP_eq_zero]
  intro c hc
  have := (chain_elem_facts s hs k hk c hc).1
  simp only [decide_eq_true_eq]
  rw [this]
  exact hne

theorem countP_msGroup_cnt (s : PoolAlloc) (hs : s.freeList.Nodup) (k : Cand)
    (hk : k ∈ compactCands s) :
    Multiset.countP (fun c : Chunk => c.1 = k.pool) (msGroup k) = k.cnt := by
  obtain ⟨hch, hcnt, -⟩ := compactCands_shape s hs k hk
  rw [msGroup, Multiset.countP_cons, if_pos rfl, Multiset.coe_countP]
  have hall : ∀ c ∈ k.chain, (fun c : Chunk => decide (c.1 = k.pool)) c = true := by
    intro c hc
    simpa using (chain_elem_facts s hs k hk c hc).1
  rw [List.countP_eq_length_filter, List.filter_eq_self.mpr hall, hch,
    List.length_reverse, hcnt]
  omega

theorem sum_map_eq_single (L : List Cand) (f : Cand → Nat) (p : Nat)
    (hnd : (L.map Cand.pool).Nodup) (k : Cand) (hk : k ∈ L) (hkp : k.pool = p)
    (hz : ∀ kx ∈ L, kx.pool ≠ p → f kx = 0) :
    (L.map f).sum = f k := by
  induction L with
  | nil => cases hk
  | cons a L ih =>
    rw [List.map_cons, List.sum_cons]
    rw [List.map_cons, List.nodup_cons] at hnd
    by_cases hap : a.pool = p
    · have hka : k = a := by
        rcases List.mem_cons.mp hk with hcase | hcase
        · exact hcase
        · exact absurd (List.mem_map.mpr ⟨k, hcase, hkp.trans hap.symm⟩) hnd.1
      subst hka
      have hrest : (L.map f).sum = 0 := by
        apply List.sum_eq_zero
        intro x hx
        obtain ⟨kx, hkx, rfl⟩ := List.mem_map.mp hx
        refine hz kx (List.mem_cons_of_mem _ hkx) ?_
        intro hkxp
        exact hnd.1 (List.mem_map.mpr ⟨kx, hkx, hkxp.trans hap.symm⟩)
      rw [hrest, Nat.add_zero]
    · rw [hz a (List.mem_cons_self a L) hap, Nat.zero_add]
      have hkL : k ∈ L := by
        rcases List.mem_cons.mp hk with hcase | hcase
        · exact absurd (hcase ▸ hkp) hap
        · exact hcase
      exact ih hnd.2 hkL (fun kx hkx => hz kx (List.mem_cons_of_mem _ hkx))

theorem nonfull_pools_nodup (N : Nat) (s : PoolAlloc) (hs : s.freeList.Nodup) :
    (((compactCands s).filter fun k => !(k.cnt == N)).map Cand.pool).Nodup := by
  refine List.Nodup.sublist ?_ (compactCands_pools_nodup s hs)
  exact (List.filter_sublist _).map _

/-- After mem_pools_remove_empty_pools, a pool whose first chunk is on the
free list has strictly fewer than N chunks on the free list (it was a
candidate that was not released, and its count was rebuilt exactly). -/
theorem compact_no_full_pool (N : Nat) (s : PoolAlloc) (h : Inv N s) (hN : 1 ≤ N) :
    ∀ p : Nat, ((p, 0) : Chunk) ∈ (mem_pools_remove_empty_pools N s).freeList →
      (mem_pools_remove_empty_pools N s).freeList.countP (fun c => c.1 == p) < N := by
  intro p hp
  have hms := compact_final_ms N s h.nodup
  have hpmem : ((p, 0) : Chunk) ∈
      ((mem_pools_remove_empty_pools N s).freeList : Multiset Chunk) :=
    Multiset.mem_coe.mpr hp
  rw [hms, Multiset.mem_add] at hpmem
  have hK : ∃ k ∈ (compactCands s).filter fun k => !(k.cnt == N), k.pool = p := by
    rcases hpmem with hin | hin
    · exfalso
      exact (rem2_elem_facts s h.nodup _ (Multiset.mem_coe.mp hin)).1 rfl
    · rw [mem_sum_map] at hin
      obtain ⟨k, hkmem, hkin⟩ := hin
      rw [msGroup, Multiset.mem_cons] at hkin
      rcases hkin with hkin | hkin
      · exact ⟨k, hkmem, (congrArg Prod.fst hkin).symm⟩
      · exfalso
        exact (chain_elem_facts s h.nodup k (List.mem_of_mem_filter hkmem) _
          (Multiset.mem_coe.mp hkin)).2.1 rfl
  obtain ⟨k, hkf, hkp⟩ := hK
  have hk : k ∈ compactCands s := List.mem_of_mem_filter hkf
  have hknotfull : k.cnt ≠ N := by simpa using List.of_mem_filter hkf
  have hkcnt : k.cnt < N := Nat.lt_of_le_of_ne (cnt_le N s h hN k hk) hknotfull
  have hcpeq : ((mem_pools_remove_empty_pools N s).freeList.countP fun c => c.1 == p) =
      Multiset.countP (fun c : Chunk => c.1 = p)
        ((mem_pools_remove_empty_pools N s).freeList : Multiset Chunk) := by
    rw [Multiset.coe_countP]
    apply List.countP_congr
    intro c _
    by_cases hc : c.1 = p <;> simp [hc]
  rw [hcpeq, hms, Multiset.countP_add, countP_sum_map]
  have hz1 : Multiset.countP (fun c : Chunk => c.1 = p) (↑(compactRem s) : Multiset Chunk)
      = 0 := by
    rw [Multiset.coe_countP, List.countP_eq_zero]
    intro c hc
    have hfact := (rem2_elem_facts s h.nodup c hc).2.2 k hk
    simp only [decide_eq_true_eq]
    intro hcp
    exact hfact (hkp.trans hcp.symm)
  have hsum : (((compactCands s).filter fun k => !(k.cnt == N)).map
      fun kx => Multiset.countP (fun c : Chunk => c.1 = p) (msGroup kx)).sum = k.cnt := by
    have := sum_map_eq_single ((compactCands s).filter fun k => !(k.cnt == N))
      (fun kx => Multiset.countP (fun c : Chunk => c.1 = p) (msGroup kx)) p
      (nonfull_pools_nodup N s h.nodup) k hkf hkp
      (fun kx hkx hxne =>
        countP_msGroup_zero s h.nodup kx (List.mem_of_mem_filter hkx) p hxne)
    rw [this, ← hkp]
    exact countP_msGroup_cnt s h.nodup k hk
  rw [hz1, hsum, Nat.zero_add]
  exact hkcnt

/-! ## Stability: compacting a state with no fully free pool is a no-op -/

theorem cnt_eq_countP (N : Nat) (s : PoolAlloc) (h : Inv N s) :
    ∀ k ∈ compactCands s,
      k.cnt = s.freeList.countP (fun c => c.1 == k.pool) ∧
      ((k.pool, 0) : Chunk) ∈ s.freeList := by
  intro k hk
  have hpool : k.pool ∈ ((pass1 s.freeList 0).2).map Cand.pool := by
    rw [← compactCands_pools s h.nodup]
    exact List.mem_map.mpr ⟨k, hk, rfl⟩
  have hmem : ((k.pool, 0) : Chunk) ∈ s.freeList := by
    have h1 : ((k.pool, 0) : Chunk) ∈ s.freeList.filter (fun c => c.2 == 0) := by
      rw [first_chunks_eq s]
      exact List.mem_map.mpr ⟨k.pool, hpool, rfl⟩
    exact List.mem_of_mem_filter h1
  refine ⟨?_, hmem⟩
  obtain ⟨hch, hcnt, -⟩ := compactCands_shape s h.nodup k hk
  have hsplit : s.freeList.countP (fun c => c.1 == k.pool) =
      (s.freeList.filter fun c => c.2 == 0).countP (fun c => c.1 == k.pool) +
      ((pass1 s.freeList 0).1).countP (fun c => c.1 == k.pool) := by
    rw [pass1_fst, ← List.countP_append]
    exact ((List.filter_append_perm (fun c : Chunk => c.2 == 0) s.freeList).countP_eq _).symm
  have hfirst : (s.freeList.filter fun c => c.2 == 0).countP (fun c => c.1 == k.pool)
      = 1 := by
    rw [first_chunks_eq s, List.countP_map]
    have hx : ((fun c : Chunk => c.1 == k.pool) ∘ fun p => ((p, 0) : Chunk)) =
        fun q => q == k.pool := rfl
    rw [hx, ← List.count]
    exact List.count_eq_one_of_mem (cs1_pools_nodup s h.nodup) hpool
  rw [hsplit, hfirst, List.countP_eq_length_filter, hcnt]

theorem compact_stable (N : Nat) (t : PoolAlloc) (h : Inv N t)
    (hstab : ∀ p : Nat, ((p, 0) : Chunk) ∈ t.freeList →
      t.freeList.countP (fun c => c.1 == p) < N) :
    (mem_pools_remove_empty_pools N t).livePools = t.livePools ∧
    (mem_pools_remove_empty_pools N t).freeCount = t.freeCount ∧
    List.Perm (mem_pools_remove_empty_pools N t).freeList t.freeList := by
  have hnofull : ∀ k ∈ compactCands t, k.cnt ≠ N := by
    intro k hk
    obtain ⟨hcnt, hmem⟩ := cnt_eq_countP N t h k hk
    have := hstab k.pool hmem
    omega
  have hbid : ∀ k ∈ compactCands t, k.bid < 8 :=
    fun k hk => (compactCands_shape t h.nodup k hk).2.2
  have hnofullProc : ∀ k ∈ procOrder (compactCands t), k.cnt ≠ N :=
    fun k hk => hnofull k ((procOrder_perm _ hbid).mem_iff.mp hk)
  obtain ⟨hlive, hcount⟩ := pass3_noFull N (procOrder (compactCands t))
    ⟨compactRem t, t.freeCount, t.livePools, t.nextPool⟩ hnofullProc
  refine ⟨?_, ?_, ?_⟩
  · rw [compact_eq]; exact hlive
  · rw [compact_eq]; exact hcount
  · rw [← Multiset.coe_eq_coe, compact_final_ms N t h.nodup]
    have hfe : (compactCands t).filter (fun k => !(k.cnt == N)) = compactCands t := by
      apply List.filter_eq_self.mpr
      intro k hk
      simpa using hnofull k hk
    rw [hfe]
    exact (compact_decomp t h.nodup).symm

/-! ## Early return: no free chunk is first at its pool -/

theorem compact_id_of_no_first (N : Nat) (s : PoolAlloc)
    (h : ∀ c ∈ s.freeList, c.2 ≠ 0) : mem_pools_remove_empty_pools N s = s := by
  have hrem : (pass1 s.freeList 0).1 = s.freeList := by
    rw [pass1_fst]
    apply List.filter_eq_self.mpr
    intro c hc
    simpa using h c hc
  have hcs : (pass1 s.freeList 0).2 = [] := by
    have hpl := pass1_pools s.freeList 0
    have hf : s.freeList.filter (fun c => c.2 == 0) = [] := by
      rw [List.filter_eq_nil_iff]
      intro c hc
      simpa using h c hc
    rw [hf] at hpl
    simpa using hpl
  simp only [mem_pools_remove_empty_pools, hcs, hrem, List.length_nil, if_pos rfl]
  rw [if_pos trivial]

/-! ## The 2N-chunk scenario -/

theorem freeRun_eq (l : List Chunk) (s : PoolAlloc) :
    freeRun s l = ⟨l.reverse ++ s.freeList, s.freeCount + l.length, s.livePools,
      s.nextPool⟩ := by
  induction l generalizing s with
  | nil => simp [freeRun]
  | cons c l ih =>
    rw [freeRun, List.foldl_cons, ← freeRun, ih]
    simp [mem_pools_free, PoolAlloc.mk.injEq, List.reverse_cons, List.append_assoc]
    omega

theorem allocRun_pops (N : Nat) (cl : List Chunk) (s : PoolAlloc)
    (hfl : s.freeList = cl) :
    allocRun N s cl.length =
      (⟨[], s.freeCount - cl.length, s.livePools, s.nextPool⟩, cl) := by
  induction cl generalizing s with
  | nil =>
    cases s
    simp only at hfl
    subst hfl
    simp [allocRun]
  | cons c rest ih =>
    have hne : s.freeList.isEmpty = false := by rw [hfl]; rfl
    have halloc : mem_pools_alloc N s [] true =
        (some c, ⟨rest, s.freeCount - 1, s.livePools, s.nextPool⟩) := by
      rw [mem_pools_alloc, if_neg (by simp [hne]), popFree, hfl]
    have hcount : s.freeCount - 1 - rest.length = s.freeCount - (rest.length + 1) := by
      omega
    rw [List.length_cons, allocRun]
    simp only [halloc, ih ⟨rest, s.freeCount - 1, s.livePools, s.nextPool⟩ rfl,
      Option.toList, hcount]
    rfl

theorem mem_pool_init_succ (p m : Nat) :
    mem_pool_init p (m + 1) =
      ((p, 0) : Chunk) :: (List.range m).map fun i => ((p, i + 1) : Chunk) := by
  rw [mem_pool_init, List.range_succ_eq_map, List.map_cons, List.map_map]
  rfl

theorem allocRun_block (N : Nat) (hN : 1 ≤ N) (s : PoolAlloc) (hfl : s.freeList = [])
    (hfc : s.freeCount = 0) :
    allocRun N s N =
      (⟨[], 0, s.nextPool :: s.livePools, s.nextPool + 1⟩, mem_pool_init s.nextPool N) := by
  obtain ⟨m, rfl⟩ : ∃ m, N = m + 1 := ⟨N - 1, by omega⟩
  have hs1 : mem_pools_alloc (m + 1) s [] true =
      (some ((s.nextPool, 0) : Chunk),
        ⟨(List.range m).map fun i => ((s.nextPool, i + 1) : Chunk), m,
          s.nextPool :: s.livePools, s.nextPool + 1⟩) := by
    rw [mem_pools_alloc, if_pos (by rw [hfl]; rfl), longpath_empty _ s hfl hfc,
      popFree]
    simp only [mem_pool_init_succ, Nat.add_sub_cancel]
  have hrest := allocRun_pops (m + 1) ((List.range m).map fun i => ((s.nextPool, i + 1) : Chunk))
    ⟨(List.range m).map fun i => ((s.nextPool, i + 1) : Chunk), m,
      s.nextPool :: s.livePools, s.nextPool + 1⟩ rfl
  rw [List.length_map, List.length_range] at hrest
  have hcount : m - m = 0 := by omega
  rw [allocRun]
  simp only [hs1, hrest, Option.toList, hcount]
  exact Prod.ext rfl (mem_pool_init_succ s.nextPool m).symm

theorem allocRun_add (N : Nat) (a b : Nat) (s : PoolAlloc) :
    allocRun N s (a + b) =
      ((allocRun N (allocRun N s a).1 b).1,
        (allocRun N s a).2 ++ (allocRun N (allocRun N s a).1 b).2) := by
  induction a generalizing s with
  | zero => simp [allocRun]
  | succ a ih =>
    have h1 : a + 1 + b = (a + b) + 1 := by omega
    rw [h1, allocRun, allocRun, ih]
    simp [List.append_assoc]

theorem allocRun_two_pools (N : Nat) (hN : 1 ≤ N) :
    allocRun N mem_pools_init (N + N) =
      (⟨[], 0, [1, 0], 2⟩, mem_pool_init 0 N ++ mem_pool_init 1 N) := by
  have h1 : allocRun N mem_pools_init N = (⟨[], 0, [0], 1⟩, mem_pool_init 0 N) := by
    simpa [mem_pools_init] using allocRun_block N hN mem_pools_init rfl rfl
  have h2 : allocRun N ⟨[], 0, [0], 1⟩ N = (⟨[], 0, [1, 0], 2⟩, mem_pool_init 1 N) := by
    simpa using allocRun_block N hN ⟨[], 0, [0], 1⟩ rfl rfl
  rw [allocRun_add, h1, h2]

theorem mem_pool_init_filter_first (p N : Nat) (hN : 1 ≤ N) :
    (mem_pool_init p N).filter (fun c => c.2 == 0) = [((p, 0) : Chunk)] := by
  obtain ⟨m, rfl⟩ : ∃ m, N = m + 1 := ⟨N - 1, by omega⟩
  rw [mem_pool_init_succ, List.filter_cons]
  simp only [beq_self_eq_true, if_pos trivial]
  congr 1
  rw [List.filter_eq_nil_iff]
  intro c hc
  obtain ⟨i, -, rfl⟩ := List.mem_map.mp hc
  simp

theorem mem_pool_init_countP_pool (p q N : Nat) :
    (mem_pool_init p N).countP (fun c => c.1 == q) = if p = q then N else 0 := by
  by_cases hpq : p = q
  · subst hpq
    rw [if_pos rfl, List.countP_eq_length_filter, List.filter_eq_self.mpr,
      mem_pool_init_length]
    intro c hc
    simpa using mem_pool_init_pool p N c hc
  · rw [if_neg hpq, List.countP_eq_zero]
    intro c hc
    have := mem_pool_init_pool p N c hc
    simp only [beq_iff_eq]
    rw [this]
    exact hpq

theorem scenario_state (N : Nat) (hN : 1 ≤ N) :
    freeRun (allocRun N mem_pools_init (N + N)).1
        ((allocRun N mem_pools_init (N + N)).2.reverse) =
      ⟨mem_pool_init 0 N ++ mem_pool_init 1 N, N + N, [1, 0], 2⟩ := by
  rw [allocRun_two_pools N hN]
  simp only
  rw [freeRun_eq]
  simp [List.reverse_reverse, mem_pool_init_length]

theorem scenario_inv (N : Nat) (hN : 1 ≤ N) :
    Inv N (⟨mem_pool_init 0 N ++ mem_pool_init 1 N, N + N, [1, 0], 2⟩ : PoolAlloc) := by
  refine ⟨?_, ?_, ?_, ?_, ?_⟩
  · simp [mem_pool_init_length]
  · rw [List.nodup_append]
    refine ⟨mem_pool_init_nodup _ _, mem_pool_init_nodup _ _, ?_⟩
    intro c hc0 hc1
    have h0 := mem_pool_init_pool 0 N c hc0
    have h1 := mem_pool_init_pool 1 N c hc1
    omega
  · intro c hc
    rcases List.mem_append.mp hc with hc | hc
    exacts [mem_pool_init_idx _ _ c hc, mem_pool_init_idx _ _ c hc]
  · simp
  · intro p hp
    show p < 2
    have hp2 : p ∈ ([1, 0] : List Nat) := hp
    simp only [List.mem_cons, List.mem_singleton, List.not_mem_nil, or_false] at hp2
    omega

theorem scenario_cands (N : Nat) (hN : 1 ≤ N) :
    ((compactCands (⟨mem_pool_init 0 N ++ mem_pool_init 1 N, N + N, [1, 0], 2⟩ :
        PoolAlloc)).map Cand.pool = [0, 1]) ∧
    ∀ k ∈ compactCands (⟨mem_pool_init 0 N ++ mem_pool_init 1 N, N + N, [1, 0], 2⟩ :
        PoolAlloc), k.cnt = N := by
  have hinv := scenario_inv N hN
  have hpools : (compactCands (⟨mem_pool_init 0 N ++ mem_pool_init 1 N, N + N, [1, 0], 2⟩ :
      PoolAlloc)).map Cand.pool = [0, 1] := by
    rw [compactCands_pools _ hinv.nodup, pass1_pools]
    show (List.filter _ (mem_pool_init 0 N ++ mem_pool_init 1 N)).map Prod.fst = [0, 1]
    rw [List.filter_append, mem_pool_init_filter_first 0 N hN,
      mem_pool_init_filter_first 1 N hN]
    rfl
  refine ⟨hpools, ?_⟩
  intro k hk
  obtain ⟨hcnt, -⟩ := cnt_eq_countP N _ hinv k hk
  have hpool : k.pool ∈ ([0, 1] : List Nat) := by
    rw [← hpools]
    exact List.mem_map.mpr ⟨k, hk, rfl⟩
  rw [hcnt]
  show (mem_pool_init 0 N ++ mem_pool_init 1 N).countP (fun c => c.1 == k.pool) = N
  rw [List.countP_append, mem_pool_init_countP_pool, mem_pool_init_countP_pool]
  simp only [List.mem_cons, List.mem_singleton, List.not_mem_nil, or_false] at hpool
  rcases hpool with hp | hp
  · rw [hp]
    simp
  · rw [hp]
    simp

theorem scenario_compact (N : Nat) (hN : 1 ≤ N) :
    (mem_pools_remove_empty_pools N
        (⟨mem_pool_init 0 N ++ mem_pool_init 1 N, N + N, [1, 0], 2⟩ : PoolAlloc)).freeCount
      = 0 ∧
    (mem_pools_remove_empty_pools N
        (⟨mem_pool_init 0 N ++ mem_pool_init 1 N, N + N, [1, 0], 2⟩ : PoolAlloc)).livePools
      = [] := by
  have hinv := scenario_inv N hN
  obtain ⟨hpools, hcnts⟩ := scenario_cands N hN
  constructor
  · rw [compact_count N _ hinv]
    have hcp : ((compactCands (⟨mem_pool_init 0 N ++ mem_pool_init 1 N, N + N, [1, 0], 2⟩ :
        PoolAlloc)).countP fun k => k.cnt == N) = 2 := by
      rw [List.countP_eq_length_filter, List.filter_eq_self.mpr
        (fun k hk => by simp [hcnts k hk])]
      have hlen := congrArg List.length hpools
      rw [List.length_map] at hlen
      simpa using hlen
    rw [hcp]
    show N + N - N * 2 = 0
    omega
  · obtain ⟨hnd, hmem⟩ := compact_live N _ hinv
    rw [List.eq_nil_iff_forall_not_mem]
    intro q hq
    obtain ⟨hq1, hq2⟩ := (hmem q).mp hq
    have hq3 : q ∈ (compactCands (⟨mem_pool_init 0 N ++ mem_pool_init 1 N, N + N,
        [1, 0], 2⟩ : PoolAlloc)).map Cand.pool := by
      rw [hpools]
      show q ∈ ([0, 1] : List Nat)
      have : q ∈ ([1, 0] : List Nat) := hq1
      simp only [List.mem_cons, List.mem_singleton] at this ⊢
      tauto
    obtain ⟨k, hk, hkp⟩ := List.mem_map.mp hq3
    exact hq2 k hk (hcnts k hk) hkp

theorem popFree_none (s1 : PoolAlloc) : (popFree s1).1 = none ↔ s1.freeList = [] := by
  cases hl : s1.freeList with
  | nil => simp [popFree, hl]
  | cons c rest => simp [popFree, hl]

theorem gcApply_eq (l : List Chunk) (s : PoolAlloc) :
    gcApply s l = ⟨l.reverse ++ s.freeList, s.freeCount + l.length, s.livePools,
      s.nextPool⟩ :=
  freeRun_eq l s

theorem c3_state_reach : Reach 4 (⟨[(0, 0), (0, 1), (0, 2)], 3, [0], 1⟩ : PoolAlloc) := by
  have h0 : Reach 4 mem_pools_init := Reach.init
  have h1 := Reach.alloc h0
  have h2 := Reach.alloc h1
  have h3 := Reach.alloc h2
  have h4 := Reach.alloc h3
  have e4 : (mem_pools_alloc 4 (mem_pools_alloc 4 (mem_pools_alloc 4 (mem_pools_alloc 4
      mem_pools_init [] true).2 [] true).2 [] true).2 [] true).2 =
      (⟨[], 0, [0], 1⟩ : PoolAlloc) := by decide
  rw [e4] at h4
  have h5 := Reach.free (c := ((0, 2) : Chunk)) h4 (by decide) (by decide) (by decide)
  have e5 : mem_pools_free (⟨[], 0, [0], 1⟩ : PoolAlloc) ((0, 2) : Chunk) =
      (⟨[(0, 2)], 1, [0], 1⟩ : PoolAlloc) := by decide
  rw [e5] at h5
  have h6 := Reach.free (c := ((0, 1) : Chunk)) h5 (by decide) (by decide) (by decide)
  have e6 : mem_pools_free (⟨[(0, 2)], 1, [0], 1⟩ : PoolAlloc) ((0, 1) : Chunk) =
      (⟨[(0, 1), (0, 2)], 2, [0], 1⟩ : PoolAlloc) := by decide
  rw [e6] at h6
  have h7 := Reach.free (c := ((0, 0) : Chunk)) h6 (by decide) (by decide) (by decide)
  have e7 : mem_pools_free (⟨[(0, 1), (0, 2)], 2, [0], 1⟩ : PoolAlloc) ((0, 0) : Chunk) =
      (⟨[(0, 0), (0, 1), (0, 2)], 3, [0], 1⟩ : PoolAlloc) := by decide
  rw [e7] at h7
  exact h7

/-! ## Claim theorems for the pool allocator -/

/-- C1: for every reachable allocator state, after mem_pools_remove_empty_pools
returns no live pool has all of its MEM_POOL_CHUNKS_NUMBER chunks on the global
free-chunk list; and after allocating 2N chunks from an empty allocator,
freeing all of them in reverse order and calling the compacting pass, the
global free-chunk count drops to 0 and exactly the two live pools are released
back to the heap. -/
theorem claim_compact_no_full_pool_and_scenario (N : Nat) (hN : 1 ≤ N) :
    (∀ s : PoolAlloc, Reach N s →
      ∀ p ∈ (mem_pools_remove_empty_pools N s).livePools,
        ¬∀ i < N, ((p, i) : Chunk) ∈ (mem_pools_remove_empty_pools N s).freeList) ∧
    ((freeRun (allocRun N mem_pools_init (2 * N)).1
        ((allocRun N mem_pools_init (2 * N)).2.reverse)).livePools.length = 2 ∧
     (mem_pools_remove_empty_pools N (freeRun (allocRun N mem_pools_init (2 * N)).1
        ((allocRun N mem_pools_init (2 * N)).2.reverse))).freeCount = 0 ∧
     (mem_pools_remove_empty_pools N (freeRun (allocRun N mem_pools_init (2 * N)).1
        ((allocRun N mem_pools_init (2 * N)).2.reverse))).livePools = []) := by
  constructor
  · intro s hr p hp hall
    have h := reach_inv N s hr
    have h0 := hall 0 hN
    have hcp := compact_no_full_pool N s h hN p h0
    have hnd : ((List.range N).map fun i => ((p, i) : Chunk)).Nodup := by
      refine List.Nodup.map ?_ (List.nodup_range N)
      intro i j hij
      exact congrArg Prod.snd hij
    have hsub : ((List.range N).map fun i => ((p, i) : Chunk)) ⊆
        (mem_pools_remove_empty_pools N s).freeList := by
      intro c hc
      obtain ⟨i, hi, rfl⟩ := List.mem_map.mp hc
      exact hall i (List.mem_range.mp hi)
    have hle := (List.subperm_of_subset hnd hsub).countP_le (fun c => c.1 == p)
    have hNcount : (((List.range N).map fun i => ((p, i) : Chunk)).countP
        fun c => c.1 == p) = N := by
      rw [List.countP_eq_length_filter, List.filter_eq_self.mpr, List.length_map,
        List.length_range]
      intro c hc
      obtain ⟨i, -, rfl⟩ := List.mem_map.mp hc
      simp
    rw [hNcount] at hle
    exact Nat.lt_irrefl N (Nat.lt_of_le_of_lt hle hcp)
  · have h2N : 2 * N = N + N := two_mul N
    rw [h2N, scenario_state N hN]
    obtain ⟨hc, hl⟩ := scenario_compact N hN
    exact ⟨rfl, hc, hl⟩

theorem claim_compact_no_full_pool_and_scenario_witness :
    1 ≤ 8 ∧
    (mem_pools_remove_empty_pools 8 (freeRun (allocRun 8 mem_pools_init (2 * 8)).1
      ((allocRun 8 mem_pools_init (2 * 8)).2.reverse))).livePools = [] :=
  ⟨by decide, (claim_compact_no_full_pool_and_scenario 8 (by decide)).2.2.2⟩

/-- C2: in every allocator state reachable by a sequence of mem_pools_alloc,
mem_pools_free and mem_pools_remove_empty_pools calls from mem_pools_init
(with mem_pools_free applied, per its contract, to currently allocated
chunks), the number of chunks reachable from mem_free_chunk_p along the
next-chunk pointers equals mem_free_chunks_number, and the chunks on the list
are pairwise distinct. -/
theorem claim_free_count_matches_list (N : Nat) (s : PoolAlloc) (h : Reach N s) :
    s.freeCount = s.freeList.length ∧ s.freeList.Nodup :=
  ⟨(reach_inv N s h).count_eq, (reach_inv N s h).nodup⟩

theorem claim_free_count_matches_list_witness :
    (mem_pools_alloc 8 mem_pools_init [] true).2.freeCount =
        (mem_pools_alloc 8 mem_pools_init [] true).2.freeList.length ∧
      (mem_pools_alloc 8 mem_pools_init [] true).2.freeList.Nodup :=
  claim_free_count_matches_list 8 _ (Reach.alloc Reach.init)

/-- C3, counterexample to the claim as stated: on a reachable state the second
mem_pools_remove_empty_pools call does not leave the free-chunk list equal to
what the first call produced - each surviving pool's local chain comes back
reversed. -/
theorem claim_compact_idempotent_counterexample :
    Reach 4 (⟨[(0, 0), (0, 1), (0, 2)], 3, [0], 1⟩ : PoolAlloc) ∧
    (mem_pools_remove_empty_pools 4 (mem_pools_remove_empty_pools 4
        (⟨[(0, 0), (0, 1), (0, 2)], 3, [0], 1⟩ : PoolAlloc))).freeList ≠
      (mem_pools_remove_empty_pools 4
        (⟨[(0, 0), (0, 1), (0, 2)], 3, [0], 1⟩ : PoolAlloc)).freeList :=
  ⟨c3_state_reach, by decide⟩

/-- C3 amended: for every reachable allocator state, a second
mem_pools_remove_empty_pools call releases no pool and changes neither the
live pools, nor mem_free_chunks_number, nor the multiset of chunks on the
free-chunk list; only the sequential order of the chain may differ. -/
theorem claim_compact_idempotent_upto_order (N : Nat) (hN : 1 ≤ N) (s : PoolAlloc)
    (h : Reach N s) :
    (mem_pools_remove_empty_pools N (mem_pools_remove_empty_pools N s)).livePools =
      (mem_pools_remove_empty_pools N s).livePools ∧
    (mem_pools_remove_empty_pools N (mem_pools_remove_empty_pools N s)).freeCount =
      (mem_pools_remove_empty_pools N s).freeCount ∧
    List.Perm
      (mem_pools_remove_empty_pools N (mem_pools_remove_empty_pools N s)).freeList
      (mem_pools_remove_empty_pools N s).freeList := by
  have hinv := compact_inv N s (reach_inv N s h)
  have hstab := compact_no_full_pool N s (reach_inv N s h) hN
  exact compact_stable N _ hinv hstab

theorem claim_compact_idempotent_upto_order_witness :
    1 ≤ 4 ∧ List.Perm
      (mem_pools_remove_empty_pools 4 (mem_pools_remove_empty_pools 4
        (mem_pools_alloc 4 mem_pools_init [] true).2)).freeList
      (mem_pools_remove_empty_pools 4 (mem_pools_alloc 4 mem_pools_init [] true).2).freeList :=
  ⟨by decide,
    (claim_compact_idempotent_upto_order 4 (by decide) _ (Reach.alloc Reach.init)).2.2⟩

/-- C10: if no chunk on the global free-chunk list is the first chunk of its
owning pool, mem_pools_remove_empty_pools returns after its first walk leaving
the whole allocator state - free-chunk pointer, chain, counter and live
pools - exactly unchanged. -/
theorem claim_compact_early_return (N : Nat) (s : PoolAlloc)
    (h : ∀ c ∈ s.freeList, c.2 ≠ 0) :
    mem_pools_remove_empty_pools N s = s :=
  compact_id_of_no_first N s h

theorem claim_compact_early_return_witness :
    (∀ c ∈ ([((3, 1) : Chunk), (5, 2)] : List Chunk), c.2 ≠ 0) ∧
    mem_pools_remove_empty_pools 4 (⟨[(3, 1), (5, 2)], 2, [3, 5], 6⟩ : PoolAlloc) =
      (⟨[(3, 1), (5, 2)], 2, [3, 5], 6⟩ : PoolAlloc) :=
  ⟨by decide, claim_compact_early_return 4 _ (by decide)⟩

/-- C4: mem_pools_alloc returns the NULL sentinel exactly when the free-chunk
list is empty, the heap call freed no chunk through the garbage collector,
and the underlying heap cannot provide a new pool; in every other case it
returns a chunk; and mem_pools_free never fails - it always pushes its chunk
on the list and increments the counter. -/
theorem claim_alloc_fails_iff (N : Nat) (hN : 1 ≤ N) (s : PoolAlloc)
    (hcount : s.freeCount = s.freeList.length) (gcFreed : List Chunk) (heapOk : Bool) :
    ((mem_pools_alloc N s gcFreed heapOk).1 = none ↔
      (s.freeList = [] ∧ gcFreed = [] ∧ heapOk = false)) ∧
    (∀ t : PoolAlloc, ∀ c : Chunk, (mem_pools_free t c).freeList = c :: t.freeList ∧
      (mem_pools_free t c).freeCount = t.freeCount + 1) := by
  refine ⟨?_, fun t c => ⟨rfl, rfl⟩⟩
  rw [mem_pools_alloc, popFree_none]
  by_cases hfl : s.freeList = []
  · have hfc : s.freeCount = 0 := by rw [hcount, hfl]; rfl
    rw [if_pos (by rw [hfl]; rfl)]
    cases heapOk with
    | false =>
      have hlong : mem_pools_alloc_longpath N s gcFreed false = gcApply s gcFreed := by
        rw [mem_pools_alloc_longpath, if_neg Bool.false_ne_true]
      rw [hlong, gcApply_eq, hfl, List.append_nil]
      show gcFreed.reverse = [] ↔ _
      constructor
      · intro h
        have hg : gcFreed = [] := by simpa using congrArg List.reverse h
        exact ⟨rfl, hg, rfl⟩
      · rintro ⟨-, rfl, -⟩
        rfl
    | true =>
      cases hgc : gcFreed with
      | nil =>
        rw [longpath_empty N s hfl hfc]
        show mem_pool_init s.nextPool N = [] ↔ _
        constructor
        · intro h
          have := congrArg List.length h
          rw [mem_pool_init_length] at this
          simp at this
          omega
        · rintro ⟨-, -, h⟩
          exact absurd h (by simp)
      | cons c0 rest =>
        have hne : (gcApply s (c0 :: rest)).freeCount ≠ 0 := by
          rw [gcApply_eq, hfc]
          simp
        rw [mem_pools_alloc_longpath, if_pos rfl, if_pos hne]
        show (gcApply s (c0 :: rest)).freeList = [] ↔ _
        rw [gcApply_eq, hfl, List.append_nil]
        show (c0 :: rest).reverse = [] ↔ _
        constructor
        · intro h
          have := congrArg List.length h
          simp at this
        · rintro ⟨-, h, -⟩
          exact absurd h (by simp)
  · rw [if_neg (by simpa [List.isEmpty_iff] using hfl)]
    constructor
    · intro h
      exact absurd h hfl
    · rintro ⟨h, -, -⟩
      exact absurd h hfl

theorem claim_alloc_fails_iff_witness :
    (1 ≤ 8 ∧ mem_pools_init.freeCount = mem_pools_init.freeList.length) ∧
    (((mem_pools_alloc 8 mem_pools_init [] false).1 = none ↔
      (mem_pools_init.freeList = [] ∧ ([] : List Chunk) = [] ∧ false = false)) ∧
    (∀ t : PoolAlloc, ∀ c : Chunk, (mem_pools_free t c).freeList = c :: t.freeList ∧
      (mem_pools_free t c).freeCount = t.freeCount + 1)) :=
  ⟨⟨by decide, rfl⟩, claim_alloc_fails_iff 8 (by decide) mem_pools_init rfl [] false⟩

/-- C5: invoked with an empty free-chunk list, the slow path requests exactly
one pool-sized block from the heap (one fresh pool id is consumed); if the
heap call freed chunks as a garbage-collection side effect, the freshly
acquired block is released back to the heap (the live pools are unchanged)
and the allocation is served from the free list; otherwise the block is
formatted by mem_pool_init as MEM_POOL_CHUNKS_NUMBER chained free chunks -
chunk i pointing to chunk i+1, the last to null - and that chain becomes the
free list. -/
theorem claim_longpath_gc_or_format (N : Nat) (s : PoolAlloc) (hfl : s.freeList = [])
    (hfc : s.freeCount = 0) (gcFreed : List Chunk) :
    (mem_pools_alloc_longpath N s gcFreed true).nextPool = s.nextPool + 1 ∧
    (gcFreed ≠ [] →
      mem_pools_alloc_longpath N s gcFreed true =
        ⟨gcFreed.reverse, gcFreed.length, s.livePools, s.nextPool + 1⟩ ∧
      ∃ c, (mem_pools_alloc N s gcFreed true).1 = some c ∧ c ∈ gcFreed) ∧
    (gcFreed = [] →
      mem_pools_alloc_longpath N s gcFreed true =
        ⟨mem_pool_init s.nextPool N, N, s.nextPool :: s.livePools, s.nextPool + 1⟩) := by
  have hlp : gcFreed ≠ [] →
      mem_pools_alloc_longpath N s gcFreed true =
        ⟨gcFreed.reverse, gcFreed.length, s.livePools, s.nextPool + 1⟩ := by
    intro hne
    have hcnt : (gcApply s gcFreed).freeCount ≠ 0 := by
      rw [gcApply_eq, hfc]
      simpa using hne
    rw [mem_pools_alloc_longpath, if_pos rfl, if_pos hcnt, gcApply_eq, hfl,
      List.append_nil, hfc]
    simp
  refine ⟨?_, fun hne => ⟨hlp hne, ?_⟩,
    fun hnil => by rw [hnil]; exact longpath_empty N s hfl hfc⟩
  · by_cases hgc : gcFreed = []
    · rw [hgc, longpath_empty N s hfl hfc]
    · rw [hlp hgc]
  · rw [mem_pools_alloc, if_pos (by rw [hfl]; rfl), hlp hne]
    cases hrev : gcFreed.reverse with
    | nil => exact absurd (by simpa using congrArg List.reverse hrev) hne
    | cons c0 rest =>
      refine ⟨c0, ?_, ?_⟩
      · rfl
      · have hmem : c0 ∈ gcFreed.reverse := by
          rw [hrev]
          exact List.mem_cons_self c0 rest
        exact List.mem_reverse.mp hmem

theorem claim_longpath_gc_or_format_witness :
    ((⟨[], 0, [7], 3⟩ : PoolAlloc).freeList = [] ∧
      (⟨[], 0, [7], 3⟩ : PoolAlloc).freeCount = 0) ∧
    ((mem_pools_alloc_longpath 8 (⟨[], 0, [7], 3⟩ : PoolAlloc) [(7, 2)] true).nextPool
        = 3 + 1 ∧
      ([((7, 2) : Chunk)] ≠ [] →
        mem_pools_alloc_longpath 8 (⟨[], 0, [7], 3⟩ : PoolAlloc) [(7, 2)] true =
          ⟨[((7, 2) : Chunk)].reverse, [((7, 2) : Chunk)].length, [7], 3 + 1⟩ ∧
        ∃ c, (mem_pools_alloc 8 (⟨[], 0, [7], 3⟩ : PoolAlloc) [(7, 2)] true).1 = some c ∧
          c ∈ [((7, 2) : Chunk)]) ∧
      (([((7, 2) : Chunk)] : List Chunk) = [] →
        mem_pools_alloc_longpath 8 (⟨[], 0, [7], 3⟩ : PoolAlloc) [(7, 2)] true =
          ⟨mem_pool_init 3 8, 8, 3 :: [7], 3 + 1⟩)) :=
  ⟨⟨rfl, rfl⟩, claim_longpath_gc_or_format 8 (⟨[], 0, [7], 3⟩ : PoolAlloc) rfl rfl [(7, 2)]⟩

end JerryMem

namespace JerryParser

/-! ## Claim theorems for the parser and dumper -/

/-- C6: for the function f(x) with local y (scenario: function f(x)
with body var y = x + 1; return y), the optimization assigns register T+1 to
the local variable y and register T+2 to the parameter x (T being the temps
high-water mark), and the rewritten reg_var_decl header reports
local_var_regs_num = 1 but arg_regs_num = 2, not 1: the reset of
jsp_reg_max_for_local_var in rewrite_reg_var_decl happens before the
argument-count branch reads it, so the local-variable register is counted a
second time in arg_regs_num. -/
theorem claim_reg_var_decl_counts (FIRST T LAST : Nat) (h1 : T + 2 < LAST) :
    dumper_start_move_of_vars_to_regs ⟨T, none, none⟩ = ⟨T, some T, none⟩ ∧
    dumper_alloc_reg_for_var LAST ⟨T, some T, none⟩ false
      = some (T + 1, ⟨T, some (T + 1), none⟩) ∧
    dumper_start_move_of_args_to_regs LAST ⟨T, some (T + 1), none⟩ 1
      = (true, ⟨T, some (T + 1), some (T + 1)⟩) ∧
    dumper_alloc_reg_for_var LAST ⟨T, some (T + 1), some (T + 1)⟩ true
      = some (T + 2, ⟨T, some (T + 1), some (T + 2)⟩) ∧
    (rewrite_reg_var_decl FIRST ⟨T, some (T + 1), some (T + 2)⟩).1.local_var_regs_num
      = 1 ∧
    (rewrite_reg_var_decl FIRST ⟨T, some (T + 1), some (T + 2)⟩).1.arg_regs_num = 2 := by
  refine ⟨rfl, ?_, ?_, rfl, ?_, ?_⟩
  · have hTL : ¬(T = LAST) := by omega
    simp [dumper_alloc_reg_for_var, hTL]
  · have h1L : ¬(1 + (T + 1) ≥ LAST) := by omega
    simp [dumper_start_move_of_args_to_regs, h1L]
  · show (T + 1) - T = 1
    omega
  · show (T + 2) - T = 2
    omega

theorem claim_reg_var_decl_counts_witness :
    1 + 2 < 254 ∧
    (rewrite_reg_var_decl 0 ⟨1, some 2, some 3⟩).1.local_var_regs_num = 1 ∧
    (rewrite_reg_var_decl 0 ⟨1, some 2, some 3⟩).1.arg_regs_num = 2 :=
  ⟨by decide, (claim_reg_var_decl_counts 0 1 254 (by decide)).2.2.2.2.1,
    (claim_reg_var_decl_counts 0 1 254 (by decide)).2.2.2.2.2⟩

/-- C7: for a parsed function body (is_try_replace_local_vars_with_regs set,
function scope), the identifier-to-register optimization is attempted exactly
when none of the six scope flags - references eval, references arguments,
contains with, contains try, contains delete, contains nested functions - is
set; when any of them is set, no variable or parameter of the scope is
replaced with a register. -/
theorem claim_optimization_gate (LAST : Nat) (t : ScopesTreeNode)
    (hfun : t.scopeType = ScopeType.functionScope)
    (vars params : List Nat) (d : DumperRegs) :
    (optimization_attempted true t = true ↔
      (t.ref_eval = false ∧ t.ref_arguments = false ∧ t.contains_with = false ∧
       t.contains_try = false ∧ t.contains_delete = false ∧
       t.contains_functions = false)) ∧
    ((t.ref_eval = true ∨ t.ref_arguments = true ∨ t.contains_with = true ∨
      t.contains_try = true ∨ t.contains_delete = true ∨
      t.contains_functions = true) →
      parse_source_element_list_replacements LAST true t vars params d = []) := by
  have hgate : optimization_attempted true t = may_replace_vars_with_regs t := by
    rw [optimization_attempted, hfun]
    simp
  constructor
  · rw [hgate, may_replace_vars_with_regs]
    cases he : t.ref_eval <;> cases ha : t.ref_arguments <;> cases hw : t.contains_with <;>
      cases ht : t.contains_try <;> cases hd : t.contains_delete <;>
      cases hf : t.contains_functions <;> simp
  · intro hany
    have hoff : optimization_attempted true t = false := by
      rw [hgate, may_replace_vars_with_regs]
      rcases hany with h | h | h | h | h | h <;> simp [h]
    rw [parse_source_element_list_replacements, hoff]
    simp

theorem claim_optimization_gate_witness :
    ((⟨false, false, true, false, false, false, false,
        ScopeType.functionScope⟩ : ScopesTreeNode).scopeType
      = ScopeType.functionScope) ∧
    parse_source_element_list_replacements 254 true
      ⟨false, false, true, false, false, false, false, ScopeType.functionScope⟩
      [10] [11] ⟨1, none, none⟩ = [] :=
  ⟨rfl, (claim_optimization_gate 254
    ⟨false, false, true, false, false, false, false, ScopeType.functionScope⟩ rfl
    [10] [11] ⟨1, none, none⟩).2 (by decide)⟩

/-- C8: rewrite_varg_header_set_args_count raises SyntaxError exactly when
the accumulated count exceeds 255 for function-declaration,
function-expression, constructor and call headers, and exactly when it
exceeds 65535 for array- and object-literal headers; the boundary counts
255 and 65535 succeed while 256 and 65536 fail. -/
theorem claim_varg_count_limits (k : VargKind) (n : Nat) :
    ((∃ e, rewrite_varg_header_set_args_count k n = Except.error e) ↔
      (((k = VargKind.funcExprN ∨ k = VargKind.constructN ∨ k = VargKind.callN ∨
         k = VargKind.funcDeclN) ∧ 255 < n) ∨
       ((k = VargKind.arrayDecl ∨ k = VargKind.objDecl) ∧ 65535 < n))) ∧
    (∀ kf, (kf = VargKind.funcExprN ∨ kf = VargKind.constructN ∨
        kf = VargKind.callN ∨ kf = VargKind.funcDeclN) →
      (∃ r, rewrite_varg_header_set_args_count kf 255 = Except.ok r) ∧
      (∃ e, rewrite_varg_header_set_args_count kf 256 = Except.error e)) ∧
    (∀ kl, (kl = VargKind.arrayDecl ∨ kl = VargKind.objDecl) →
      (∃ r, rewrite_varg_header_set_args_count kl 65535 = Except.ok r) ∧
      (∃ e, rewrite_varg_header_set_args_count kl 65536 = Except.error e)) := by
  refine ⟨?_, ?_, ?_⟩
  · cases k <;>
      · rw [rewrite_varg_header_set_args_count]
        by_cases hn : 255 < n
        · by_cases hn2 : 65535 < n <;> simp [hn, hn2] <;> omega
        · by_cases hn2 : 65535 < n <;> simp [hn, hn2] <;> omega
  · rintro kf (rfl | rfl | rfl | rfl) <;> exact ⟨⟨_, rfl⟩, ⟨_, rfl⟩⟩
  · rintro kl (rfl | rfl) <;> exact ⟨⟨_, rfl⟩, ⟨_, rfl⟩⟩

theorem claim_varg_count_limits_witness :
    (∃ r, rewrite_varg_header_set_args_count VargKind.funcDeclN 255 = Except.ok r) ∧
    (∃ e, rewrite_varg_header_set_args_count VargKind.funcDeclN 256 = Except.error e) :=
  (claim_varg_count_limits VargKind.funcDeclN 0).2.1 VargKind.funcDeclN (by decide)

/-- C9: parser_parse_program returns exactly one of the three statuses; the
status is OK exactly when a bytecode image is produced; on either error
status the out-parameter for the bytecode image is null; and the status is
SYNTAX_ERROR exactly when the recorded early-error kind is syntax,
REFERENCE_ERROR exactly when it is reference. -/
theorem claim_parse_program_status {β : Type _} (run : Except EarlyErrorKind β) :
    ((parser_parse_program run).1 = JspStatus.statusOk ∨
     (parser_parse_program run).1 = JspStatus.statusSynErr ∨
     (parser_parse_program run).1 = JspStatus.statusRefErr) ∧
    ((parser_parse_program run).1 = JspStatus.statusOk ↔
      (parser_parse_program run).2.isSome) ∧
    ((parser_parse_program run).1 ≠ JspStatus.statusOk →
      (parser_parse_program run).2 = none) ∧
    ((parser_parse_program run).1 = JspStatus.statusSynErr ↔
      run = Except.error EarlyErrorKind.earlySyn) ∧
    ((parser_parse_program run).1 = JspStatus.statusRefErr ↔
      run = Except.error EarlyErrorKind.earlyRef) ∧
    parser_parse_script run = parser_parse_program run ∧
    parser_parse_eval run = parser_parse_program run := by
  cases run with
  | ok b => simp [parser_parse_program, parser_parse_script, parser_parse_eval]
  | error e =>
    cases e <;> simp [parser_parse_program, parser_parse_script, parser_parse_eval]

theorem claim_parse_program_status_witness :
    (parser_parse_program (Except.error EarlyErrorKind.earlySyn :
        Except EarlyErrorKind Nat)).1 = JspStatus.statusSynErr ↔
      (Except.error EarlyErrorKind.earlySyn : Except EarlyErrorKind Nat) =
        Except.error EarlyErrorKind.earlySyn :=
  (claim_parse_program_status (Except.error EarlyErrorKind.earlySyn :
    Except EarlyErrorKind Nat)).2.2.2.1

end JerryParser
